import Mathlib

/-!
Verification of the client-side transport, framing and multiplexing logic of
`src/eval_agent.py` (repository `hearts-gym-1`).

The socket is modelled as a list of read shards (`List Shard`): each call to
`socket.recv` pops the next shard.  `recv`'s byte-count cap only bounds shard
sizes, which are universally quantified here, so it is not modelled
explicitly.  Effectful functions return an `Outcome`:
`ok` is a normal return, `exit0` models `sys.exit(0)` (the reaction to a
zero-byte read), `blocked` models a `recv` that finds no data (a timeout /
transport error propagating out), and `fatal` models an uncaught Python
exception, in particular a failed `assert`.

Functions of `hearts_gym.server` that are referenced by `src/eval_agent.py`
but whose sources are not under `src/` (the wire constants, `decode_data`,
`HeartsRequestHandler.is_done`) are modelled from the spec; each such
definition carries a doc comment starting with `Modelled from the spec:`.
-/

/-- Result of one effectful client step: normal value, `sys.exit(0)`,
a starved/blocking read (timeout propagating), or an uncaught exception
such as a failed assertion (with its message). -/
inductive Outcome (α : Type) where
  | ok : α → Outcome α
  | exit0 : Outcome α
  | blocked : Outcome α
  | fatal : String → Outcome α
deriving DecidableEq

/-- One `recv` result: a byte string (bytes as `Nat`). -/
abbrev Shard := List Nat

/-- Modelled from the spec: `hearts_gym.server.utils.MSG_LENGTH_SEPARATOR` is
not under `src/`; spec §6 describes it as a fixed multi-byte marker that
cannot occur inside a valid decimal length prefix.  We model it as the two
bytes `"::"` (58 is not an ASCII digit). -/
def MSG_LENGTH_SEPARATOR : List Nat := [58, 58]

/-- Modelled from the spec: `hearts_gym.server.utils.MAX_MSG_PREFIX_LENGTH` is
not under `src/`; spec §4.1 describes it as a fixed maximum prefix length
bounding the separator search.  Any positive value works for the theorems
below; we fix 16. -/
def MAX_MSG_PREFIX_LENGTH : Nat := 16

/-- Python `hay.find(needle)` on bytes: index of the first occurrence of
`needle` as a contiguous substring of `hay` (`none` for Python's `-1`). -/
def bytesFind (hay needle : List Nat) : Option Nat :=
  if needle.isPrefixOf hay then some 0
  else
    match hay with
    | [] => none
    | _ :: t => (bytesFind t needle).map (· + 1)

/-- ASCII decimal digit test (bytes 48-57). -/
def isDigit (b : Nat) : Bool := 48 ≤ b && b ≤ 57

/-- Python `int(bytes)` restricted to plain unsigned decimal digit strings;
any other input raises `ValueError`, modelled as `none`. -/
def parseDecimal (bs : List Nat) : Option Nat :=
  if bs ≠ [] && bs.all isDigit then
    some (bs.foldl (fun a b => a * 10 + (b - 48)) 0)
  else none

/-- Big-endian ASCII decimal digits of `n`, fuelled so that it is structural
(fuel `n` is always enough since `n / 10 < n` for positive `n`). -/
def decimalDigitsCore : Nat → Nat → List Nat
  | 0, _ => []
  | _ + 1, 0 => []
  | fuel + 1, n + 1 => decimalDigitsCore fuel ((n + 1) / 10) ++ [48 + (n + 1) % 10]

/-- ASCII decimal encoding of `n`, as Python's `str(n).encode()`. -/
def decimalDigits (n : Nat) : List Nat :=
  if n = 0 then [48] else decimalDigitsCore n n

/-- Modelled from the spec: the wire frame for a payload (spec §6) —
ASCII decimal payload length, the separator, then the payload bytes. -/
def frameShard (p : List Nat) : List Nat :=
  decimalDigits p.length ++ MSG_LENGTH_SEPARATOR ++ p

/-- Embedding of `_receive_data_shard` (src/eval_agent.py lines 90-115):
pop the next shard; a zero-byte read prints a notice and exits with status 0;
a `recv` that cannot produce data propagates as an error (`blocked`). -/
def receive_data_shard : List Shard → Outcome (Shard × List Shard)
  | [] => .blocked
  | s :: rest => if s = [] then .exit0 else .ok (s, rest)

/-- The code after the `while` loop of `_receive_msg_length`
(src/eval_agent.py lines 152-159): adjust `length_end` to an offset into the
concatenated data, parse the decimal length prefix (`int` raises `ValueError`
on a malformed prefix), and split off the extra bytes after the separator. -/
def msgLenFinish (dataAcc : List Shard) (total lastLen le : Nat) :
    Outcome (Nat × List Nat) :=
  match parseDecimal (dataAcc.flatten.take (le + (total - lastLen))) with
  | some msgLength =>
    .ok (msgLength,
      dataAcc.flatten.drop (le + (total - lastLen) + MSG_LENGTH_SEPARATOR.length))
  | none => .fatal "ValueError"

/-- The `while` loop of `_receive_msg_length` (src/eval_agent.py lines
143-152) together with the code after it, including the
`assert length_end != -1`: `dataAcc` is the accumulated shard list, `total`
the byte count received so far, `lastLen` the length of the most recent shard
and `lengthEnd` the result of `find` on that shard. -/
def msgLenLoop (dataAcc : List Shard) (total lastLen : Nat) (lengthEnd : Option Nat) :
    List Shard → Outcome ((Nat × List Nat) × List Shard)
  | [] =>
    match lengthEnd with
    | some le =>
      match msgLenFinish dataAcc total lastLen le with
      | .ok r => .ok (r, [])
      | .exit0 => .exit0
      | .blocked => .blocked
      | .fatal m => .fatal m
    | none =>
      if total < MAX_MSG_PREFIX_LENGTH then .blocked
      else .fatal "server did not send message length"
  | shard :: rest =>
    match lengthEnd with
    | some le =>
      match msgLenFinish dataAcc total lastLen le with
      | .ok r => .ok (r, shard :: rest)
      | .exit0 => .exit0
      | .blocked => .blocked
      | .fatal m => .fatal m
    | none =>
      if total < MAX_MSG_PREFIX_LENGTH then
        if shard = [] then .exit0
        else
          msgLenLoop (dataAcc ++ [shard]) (total + shard.length) shard.length
            (bytesFind shard MSG_LENGTH_SEPARATOR) rest
      else .fatal "server did not send message length"

/-- Embedding of `_receive_msg_length` (src/eval_agent.py lines 118-159):
returns the declared payload length and the extra bytes already read past the
separator, plus the not-yet-consumed shard stream. -/
def receive_msg_length : List Shard → Outcome ((Nat × List Nat) × List Shard)
  | [] => .blocked
  | shard :: rest =>
    if shard = [] then .exit0
    else
      msgLenLoop [shard] shard.length shard.length
        (bytesFind shard MSG_LENGTH_SEPARATOR) rest

/-- The payload-assembly `while` loop of `receive_data` (src/eval_agent.py
lines 186-194), including the `assert total_num_received_bytes == msg_length`
after it. -/
def recvPayloadLoop (dataAcc : List Shard) (total msgLength : Nat) :
    List Shard → Outcome (List Nat × List Shard)
  | [] =>
    if total < msgLength then .blocked
    else if total = msgLength then .ok (dataAcc.flatten, [])
    else .fatal "message does not match length"
  | shard :: rest =>
    if total < msgLength then
      if shard = [] then .exit0
      else recvPayloadLoop (dataAcc ++ [shard]) (total + shard.length) msgLength rest
    else if total = msgLength then .ok (dataAcc.flatten, shard :: rest)
    else .fatal "message does not match length"

/-- The raw-bytes part of `receive_data` (src/eval_agent.py lines 183-196):
length discovery, the `assert msg_length < max_total_receive_bytes` bound
check, and payload assembly, before any decoding. -/
def receive_raw (maxTotal : Nat) (ss : List Shard) :
    Outcome ((Nat × List Nat) × List Shard) :=
  match receive_msg_length ss with
  | .ok ((msgLength, extra), ss') =>
    if msgLength < maxTotal then
      match recvPayloadLoop [extra] extra.length msgLength ss' with
      | .ok (payload, rest) => .ok ((msgLength, payload), rest)
      | .exit0 => .exit0
      | .blocked => .blocked
      | .fatal m => .fatal m
    else .fatal "message is too long"
  | .exit0 => .exit0
  | .blocked => .blocked
  | .fatal m => .fatal m

/-- One entry of a round batch (spec §3): the instance index, the observation
mapping (keyed by textual player index), and — for the extended 5-tuple
shape — the reward mapping, the done-flag mapping and the info object. -/
structure BEntry where
  index : Int
  obs : List (String × Nat)
  ext : Option ((List (String × Int)) × (List (String × Bool)) × Unit)
deriving DecidableEq

/-- A decoded message: a text notice, or structured data (a round batch).
Spec §3: the two variants are distinguished solely by the decoded shape. -/
inductive Value where
  | str : String → Value
  | batch : List BEntry → Value
deriving DecidableEq

/-- Modelled from the spec: `hearts_gym.server.utils.decode_data` is not
under `src/`; spec §4.1 step 3 says the payload is decompressed and then
structurally decoded (JSON), either step possibly failing (`zlib.error` /
`JSONDecodeError`, modelled as `none`).  We model the codec abstractly as a
tag byte: 0 = a text notice of the remaining bytes, 1 = structured data (a
short-shape batch entry per remaining byte), anything else fails to decode. -/
def decode_data (bs : List Nat) : Option Value :=
  match bs with
  | 0 :: rest => some (.str (String.mk (rest.map Char.ofNat)))
  | 1 :: rest => some (.batch (rest.map (fun b => ⟨(b : Int), [], none⟩)))
  | _ => none

/-- Embedding of `receive_data` (src/eval_agent.py lines 162-203): assemble
the payload, then decode it; a decode failure prints the raw bytes and the
error and returns the fixed sentinel string instead of raising. -/
def receive_data (maxTotal : Nat) (ss : List Shard) : Outcome (Value × List Shard) :=
  match receive_raw maxTotal ss with
  | .ok ((_, raw), rest) =>
    match decode_data raw with
    | some v => .ok (v, rest)
    | none => .ok (.str "[See decoding error message.]", rest)
  | .exit0 => .exit0
  | .blocked => .blocked
  | .fatal m => .fatal m

/-- The `while isinstance(data, str)` loop of `wait_for_data`
(src/eval_agent.py lines 206-233), fuelled: each iteration acknowledges the
notice with `send_ok` (the returned `Nat` counts those sends) and receives
again.  `receive_data` consumes at least one shard per `ok`, so fuel
`ss.length + 1` is always sufficient (`waitLoop_fuel_irrel` below). -/
def waitLoop (maxTotal : Nat) : Nat → List Shard → Nat × Outcome (Value × List Shard)
  | 0, _ => (0, .blocked)
  | fuel + 1, ss =>
    match receive_data maxTotal ss with
    | .ok (.str _, rest) =>
      let r := waitLoop maxTotal fuel rest
      (r.1 + 1, r.2)
    | .ok (v, rest) => (0, .ok (v, rest))
    | .exit0 => (0, .exit0)
    | .blocked => (0, .blocked)
    | .fatal m => (0, .fatal m)

/-- Embedding of `wait_for_data` (src/eval_agent.py lines 206-233).  The
first component counts the `send_ok` acknowledgements sent for notices. -/
def wait_for_data (maxTotal : Nat) (ss : List Shard) : Nat × Outcome (Value × List Shard) :=
  waitLoop maxTotal (ss.length + 1) ss

/-- Python list subscription `xs[i]`: a non-negative index reads position
`i`, a negative index `-n ≤ i < 0` silently reads position `n + i`, anything
else raises `IndexError`. -/
def pyGet {α : Type} (xs : List α) (i : Int) : Outcome α :=
  let j : Int := if i < 0 then (xs.length : Int) + i else i
  if h : 0 ≤ j ∧ j < (xs.length : Int) then
    .ok (xs.get ⟨j.toNat, by omega⟩)
  else .fatal "IndexError"

/-- Python list item assignment `xs[i] = v`, with the same index semantics
as `pyGet`; returns the updated list. -/
def pySet {α : Type} (xs : List α) (i : Int) (v : α) : Outcome (List α) :=
  let j : Int := if i < 0 then (xs.length : Int) + i else i
  if 0 ≤ j ∧ j < (xs.length : Int) then
    .ok (xs.set j.toNat v)
  else .fatal "IndexError"

/-- Embedding of `_take_indices` (src/eval_agent.py lines 236-249):
`[data[i] for i in indices]`. -/
def take_indices {α : Type} (xs : List α) : List Int → Outcome (List α)
  | [] => .ok []
  | i :: is =>
    match pyGet xs i with
    | .ok v =>
      match take_indices xs is with
      | .ok vs => .ok (v :: vs)
      | .exit0 => .exit0
      | .blocked => .blocked
      | .fatal m => .fatal m
    | .exit0 => .exit0
    | .blocked => .blocked
    | .fatal m => .fatal m

/-- The write loop of `_update_indices` (src/eval_agent.py lines 268-269):
`for (i, new_val) in zip(indices, new_values): values[i] = new_val`. -/
def updateIndicesGo {α : Type} : List α → List Int → List α → Outcome (List α)
  | values, [], _ => .ok values
  | values, _, [] => .ok values
  | values, i :: is, v :: vs =>
    match pySet values i v with
    | .ok values' => updateIndicesGo values' is vs
    | .exit0 => .exit0
    | .blocked => .blocked
    | .fatal m => .fatal m

/-- Embedding of `_update_indices` (src/eval_agent.py lines 252-269),
including its `assert len(indices) == len(new_values)`. -/
def update_indices {α : Type} (values : List α) (indices : List Int)
    (newValues : List α) : Outcome (List α) :=
  if indices.length = newValues.length then updateIndicesGo values indices newValues
  else .fatal "length of indices to update and values to update with must match"

/-- Python `zip(*data)` destructured into 5 components: succeeds only if
every entry carries the extended shape (otherwise the destructuring raises
`ValueError`). -/
def allExts : List BEntry →
    Option (List ((List (String × Int)) × (List (String × Bool)) × Unit))
  | [] => some []
  | e :: es =>
    match e.ext with
    | none => none
    | some x => (allExts es).map (x :: ·)

/-- Sequence a list of options (a Python comprehension whose body may raise). -/
def seqOption {α : Type} : List (Option α) → Option (List α)
  | [] => some []
  | o :: os =>
    match o with
    | none => none
    | some v => (seqOption os).map (v :: ·)

/-- The expression `masked if None not in masked else None` of
src/eval_agent.py lines 393-402: if any gathered history value is undefined
the whole argument collapses to the no-history marker `none`. -/
def mask_arg {α : Type} (xs : List (Option α)) : Option (List (Option α)) :=
  if xs.any (fun x => x.isNone) then none else some xs

/-- Result of one round of the inner loop of `main`: the (possibly updated)
decision-state, previous-action and previous-reward arrays, tagged with
whether the round hit the episode-batch-completion `break`. -/
inductive RoundResult (St Act : Type) where
  | next : List St → List (Option Act) → List (Option Int) → RoundResult St Act
  | broke : List St → List (Option Act) → List (Option Int) → RoundResult St Act
deriving DecidableEq

/-- Decision-state array of a round result. -/
def RoundResult.statesOf {St Act : Type} : RoundResult St Act → List St
  | .next s _ _ => s
  | .broke s _ _ => s

/-- Previous-action array of a round result. -/
def RoundResult.actionsOf {St Act : Type} : RoundResult St Act → List (Option Act)
  | .next _ a _ => a
  | .broke _ a _ => a

/-- Previous-reward array of a round result. -/
def RoundResult.rewardsOf {St Act : Type} : RoundResult St Act → List (Option Int)
  | .next _ _ r => r
  | .broke _ _ r => r

/-- The reward-scatter part of a round (src/eval_agent.py lines 370-381):
if the first entry is an extended 5-tuple, destructure all entries, extract
this client's reward component `reward[str_player_index]` from each entry
(`KeyError` if absent), scatter them into the previous-reward slots, and
read the episode-completion flag `is_dones[0]['__all__']`.  Returns the
updated previous-reward array and that flag. -/
def rewardPhase (spi : String) (prevRewards : List (Option Int)) (data : List BEntry)
    (first : BEntry) : Outcome (List (Option Int) × Bool) :=
  match first.ext with
  | none => .ok (prevRewards, false)
  | some firstExt =>
    match allExts data with
    | none => .fatal "ValueError"
    | some exts =>
      match seqOption (exts.map (fun x => List.lookup spi x.1)) with
      | none => .fatal "KeyError"
      | some rewards =>
        match update_indices prevRewards (data.map (·.index)) (rewards.map some) with
        | .ok prevRewards' =>
          match List.lookup "__all__" firstExt.2.1 with
          | none => .fatal "KeyError"
          | some b => .ok (prevRewards', b)
        | .exit0 => .exit0
        | .blocked => .blocked
        | .fatal m => .fatal m

/-- The decision part of a round (src/eval_agent.py lines 382-411): check and
project the observations, gather history and state for the batch's indices,
call the opaque decision function with the masked history, send the actions
(first component of the result collects `send_actions` payloads), and scatter
the new states and actions back. -/
def actionPhase {St Act : Type}
    (decideFn : List Nat → List St → Option (List (Option Act)) →
      Option (List (Option Int)) → List Act × List St)
    (spi : String) (states : List St) (prevActions : List (Option Act))
    (prevRewards' : List (Option Int)) (data : List BEntry) :
    List (List Act) × Outcome (RoundResult St Act) :=
  match seqOption (data.map (fun e => List.lookup spi e.obs)) with
  | none => ([], .fatal "received wrong data")
  | some obssV =>
    match take_indices prevActions (data.map (·.index)) with
    | .ok mpa =>
      match take_indices prevRewards' (data.map (·.index)) with
      | .ok mpr =>
        match take_indices states (data.map (·.index)) with
        | .ok sts =>
          let res := decideFn obssV sts (mask_arg mpa) (mask_arg mpr)
          match update_indices states (data.map (·.index)) res.2 with
          | .ok states' =>
            match update_indices prevActions (data.map (·.index)) (res.1.map some) with
            | .ok prevActions' => ([res.1], .ok (.next states' prevActions' prevRewards'))
            | .exit0 => ([res.1], .exit0)
            | .blocked => ([res.1], .blocked)
            | .fatal m => ([res.1], .fatal m)
          | .exit0 => ([res.1], .exit0)
          | .blocked => ([res.1], .blocked)
          | .fatal m => ([res.1], .fatal m)
        | .exit0 => ([], .exit0)
        | .blocked => ([], .blocked)
        | .fatal m => ([], .fatal m)
      | .exit0 => ([], .exit0)
      | .blocked => ([], .blocked)
      | .fatal m => ([], .fatal m)
    | .exit0 => ([], .exit0)
    | .blocked => ([], .blocked)
    | .fatal m => ([], .fatal m)

/-- Embedding of one iteration of the inner round loop of `main`
(src/eval_agent.py lines 366-411), given an already decoded round batch.
On an empty batch the code sends an empty action list and then evaluates
`data[0]`, which raises `IndexError` (there is no `continue`).  The first
component collects the `send_actions` payloads issued during the round. -/
def round_step {St Act : Type}
    (decideFn : List Nat → List St → Option (List (Option Act)) →
      Option (List (Option Int)) → List Act × List St)
    (spi : String) (states : List St) (prevActions : List (Option Act))
    (prevRewards : List (Option Int)) (data : List BEntry) :
    List (List Act) × Outcome (RoundResult St Act) :=
  match data with
  | [] => ([[]], .fatal "IndexError")
  | first :: _ =>
    match rewardPhase spi prevRewards data first with
    | .ok (prevRewards', true) => ([], .ok (.broke states prevActions prevRewards'))
    | .ok (prevRewards', false) =>
      actionPhase decideFn spi states prevActions prevRewards' data
    | .exit0 => ([], .exit0)
    | .blocked => ([], .blocked)
    | .fatal m => ([], .fatal m)

/-- Modelled from the spec: `HeartsRequestHandler.is_done` is not under
`src/`; spec §4.4 — done when a maximum game count is configured and the
completed-games counter has reached or exceeded it; with no maximum
configured, never done. -/
def HeartsRequestHandler.is_done (numGames : Nat) (maxNumGames : Option Nat) : Bool :=
  match maxNumGames with
  | none => false
  | some m => m ≤ numGames

/-- Embedding of `_is_done` (src/eval_agent.py lines 81-87). -/
def is_done (numGames : Nat) (maxNumGames : Option Nat) : Bool :=
  HeartsRequestHandler.is_done numGames maxNumGames

/-- The outer session loop of `main` (src/eval_agent.py lines 347-418) with
the inner episode-batch abstracted to its effect on the completed-games
counter: `num_games += num_parallel_games` after each episode-batch.
Returns the number of episode-batches performed, or `none` if the fuel runs
out before the termination predicate holds (in particular for every fuel when
no maximum is configured). -/
def run_session (fuel : Nat) (maxNumGames : Option Nat) (numParallel : Nat)
    (numGames : Nat) : Option Nat :=
  if is_done numGames maxNumGames then some 0
  else
    match fuel with
    | 0 => none
    | f + 1 => (run_session f maxNumGames numParallel (numGames + numParallel)).map (· + 1)

/-- Fuel `0` or value `0` both yield the empty digit string. -/
theorem decimalDigitsCore_zero (fuel : Nat) : decimalDigitsCore fuel 0 = [] := by
  cases fuel <;> rfl

/-- Folding the decimal parser over the fuelled digit string of a positive
`n` recovers `n` (shifted past any already-parsed prefix value). -/
theorem decimalDigitsCore_foldl (fuel : Nat) :
    ∀ n, 0 < n → n ≤ fuel → ∀ a : Nat,
      (decimalDigitsCore fuel n).foldl (fun a b => a * 10 + (b - 48)) a =
        a * 10 ^ (decimalDigitsCore fuel n).length + n := by
  induction fuel with
  | zero => intro n h0 hle a; omega
  | succ f ih =>
    intro n h0 hle a
    match n, h0 with
    | m + 1, _ =>
      rw [show decimalDigitsCore (f + 1) (m + 1) =
        decimalDigitsCore f ((m + 1) / 10) ++ [48 + (m + 1) % 10] from rfl]
      rw [List.foldl_append, List.length_append]
      by_cases hq : (m + 1) / 10 = 0
      · rw [hq, decimalDigitsCore_zero]
        simp only [List.foldl_nil, List.foldl_cons, List.length_nil,
          List.length_cons, Nat.zero_add, pow_one]
        omega
      · have hqle : (m + 1) / 10 ≤ f := by omega
        rw [ih ((m + 1) / 10) (by omega) hqle a]
        simp only [List.foldl_cons, List.foldl_nil, List.length_cons,
          List.length_nil, Nat.add_zero]
        rw [pow_succ, ← mul_assoc]
        generalize a * 10 ^ (decimalDigitsCore f ((m + 1) / 10)).length = A
        omega

/-- Every byte produced by the fuelled digit function is an ASCII digit. -/
theorem decimalDigitsCore_digits (fuel : Nat) :
    ∀ n, (decimalDigitsCore fuel n).all isDigit = true := by
  induction fuel with
  | zero => intro n; rfl
  | succ f ih =>
    intro n
    match n with
    | 0 => rfl
    | m + 1 =>
      show ((decimalDigitsCore f ((m + 1) / 10)) ++ [48 + (m + 1) % 10]).all _ = true
      rw [List.all_append, ih ((m + 1) / 10), Bool.true_and]
      have : (m + 1) % 10 < 10 := by omega
      simp only [List.all_cons, List.all_nil, Bool.and_true, isDigit,
        Bool.and_eq_true, decide_eq_true_eq]
      omega

/-- The fuelled digit string of a positive `n` is non-empty. -/
theorem decimalDigitsCore_ne_nil (fuel n : Nat) (h0 : 0 < n) (hle : n ≤ fuel) :
    decimalDigitsCore fuel n ≠ [] := by
  cases fuel with
  | zero => omega
  | succ f =>
    cases n with
    | zero => omega
    | succ m => simp [decimalDigitsCore]

/-- Every byte of `decimalDigits n` is an ASCII digit. -/
theorem decimalDigits_digits (n : Nat) : (decimalDigits n).all isDigit = true := by
  unfold decimalDigits
  split
  · rfl
  · exact decimalDigitsCore_digits n n

/-- `decimalDigits n` is never empty. -/
theorem decimalDigits_ne_nil (n : Nat) : decimalDigits n ≠ [] := by
  unfold decimalDigits
  split
  · simp
  · exact decimalDigitsCore_ne_nil n n (by omega) le_rfl

/-- Python `int` inverts the decimal encoding: parsing `str(n).encode()`
yields `n`. -/
theorem parse_decimalDigits (n : Nat) : parseDecimal (decimalDigits n) = some n := by
  by_cases h0 : n = 0
  · subst h0; rfl
  · unfold parseDecimal
    rw [if_pos]
    · have := decimalDigitsCore_foldl n n (by omega) le_rfl 0
      unfold decimalDigits
      rw [if_neg h0, this]
      simp
    · simp only [ne_eq, Bool.and_eq_true, decide_eq_true_eq]
      exact ⟨decimalDigits_ne_nil n, decimalDigits_digits n⟩

/-- The separator never occurs inside a pure digit string (its first byte is
not a digit). -/
theorem bytesFind_digits_none (s : List Nat) (h : s.all isDigit = true) :
    bytesFind s MSG_LENGTH_SEPARATOR = none := by
  induction s with
  | nil => rfl
  | cons b t ih =>
    rw [List.all_cons, Bool.and_eq_true] at h
    have hb : 48 ≤ b ∧ b ≤ 57 := by
      have := h.1
      simp only [isDigit, Bool.and_eq_true, decide_eq_true_eq] at this
      exact this
    have hpre : ¬ (MSG_LENGTH_SEPARATOR.isPrefixOf (b :: t) = true) := by
      simp only [MSG_LENGTH_SEPARATOR, List.isPrefixOf, Bool.and_eq_true, beq_iff_eq]
      intro hx
      omega
    unfold bytesFind
    rw [if_neg hpre]
    show (bytesFind t MSG_LENGTH_SEPARATOR).map (· + 1) = none
    rw [ih h.2]
    rfl

/-- In `digits ++ separator ++ payload` the first occurrence of the separator
is exactly at the end of the digit prefix. -/
theorem bytesFind_digits_sep (ds r : List Nat) (h : ds.all isDigit = true) :
    bytesFind (ds ++ MSG_LENGTH_SEPARATOR ++ r) MSG_LENGTH_SEPARATOR =
      some ds.length := by
  induction ds with
  | nil =>
    have hp : MSG_LENGTH_SEPARATOR.isPrefixOf ([] ++ MSG_LENGTH_SEPARATOR ++ r) = true := by
      simp [List.isPrefixOf_iff_prefix]
    unfold bytesFind
    rw [if_pos hp]
    rfl
  | cons b t ih =>
    rw [List.all_cons, Bool.and_eq_true] at h
    have hb : 48 ≤ b ∧ b ≤ 57 := by
      have := h.1
      simp only [isDigit, Bool.and_eq_true, decide_eq_true_eq] at this
      exact this
    have hpre :
        ¬ (MSG_LENGTH_SEPARATOR.isPrefixOf ((b :: t) ++ MSG_LENGTH_SEPARATOR ++ r) = true) := by
      simp only [MSG_LENGTH_SEPARATOR, List.cons_append, List.isPrefixOf,
        Bool.and_eq_true, beq_iff_eq]
      intro hx
      omega
    unfold bytesFind
    rw [if_neg hpre]
    show (bytesFind ((b :: t).tail ++ MSG_LENGTH_SEPARATOR ++ r)
      MSG_LENGTH_SEPARATOR).map (· + 1) = some (b :: t).length
    rw [show (b :: t).tail = t from rfl, ih h.2]
    simp

/-- Evaluating the post-loop code of `_receive_msg_length` when the
accumulated data is `digits ++ separator ++ extra` and `length_end` points at
the end of the digits. -/
theorem msgLenFinish_eval (acc : List Shard) (total lastLen le : Nat)
    (D ppre : List Nat) (L : Nat)
    (hflat : acc.flatten = D ++ MSG_LENGTH_SEPARATOR ++ ppre)
    (hle : le + (total - lastLen) = D.length)
    (hparse : parseDecimal D = some L) :
    msgLenFinish acc total lastLen le = .ok (L, ppre) := by
  unfold msgLenFinish
  rw [hflat, hle]
  have h1 : (D ++ MSG_LENGTH_SEPARATOR ++ ppre).take D.length = D := by
    rw [List.append_assoc]
    exact List.take_left D (MSG_LENGTH_SEPARATOR ++ ppre)
  have h2 : (D ++ MSG_LENGTH_SEPARATOR ++ ppre).drop
      (D.length + MSG_LENGTH_SEPARATOR.length) = ppre := by
    have hl : D.length + MSG_LENGTH_SEPARATOR.length =
        (D ++ MSG_LENGTH_SEPARATOR).length := by simp
    rw [hl]
    exact List.drop_left (D ++ MSG_LENGTH_SEPARATOR) ppre
  rw [h1, h2, hparse]

/-- Running the length-discovery loop over digit-only shards followed by the
shard that wholly contains the separator yields the parsed length and the
bytes of that shard past the separator, leaving the rest of the stream
untouched. -/
theorem msgLenLoop_run (dsuf ppre : List Nat) (L : Nat) :
    ∀ (ds acc : List Shard) (lastLen : Nat) (rest : List Shard),
      (∀ s ∈ ds, s ≠ [] ∧ s.all isDigit = true) →
      dsuf.all isDigit = true →
      parseDecimal (acc.flatten ++ ds.flatten ++ dsuf) = some L →
      (acc.flatten ++ ds.flatten ++ dsuf).length < MAX_MSG_PREFIX_LENGTH →
      msgLenLoop acc acc.flatten.length lastLen none
          (ds ++ (dsuf ++ MSG_LENGTH_SEPARATOR ++ ppre) :: rest) =
        .ok ((L, ppre), rest) := by
  intro ds
  induction ds with
  | nil =>
    intro acc lastLen rest hds hsuf hparse hlen
    have hmid : dsuf ++ MSG_LENGTH_SEPARATOR ++ ppre ≠ [] := by
      simp [MSG_LENGTH_SEPARATOR]
    have htot : acc.flatten.length < MAX_MSG_PREFIX_LENGTH := by
      simp only [List.length_append] at hlen
      omega
    show msgLenLoop acc acc.flatten.length lastLen none
        ((dsuf ++ MSG_LENGTH_SEPARATOR ++ ppre) :: rest) = _
    rw [msgLenLoop]
    rw [if_pos htot, if_neg hmid, bytesFind_digits_sep dsuf ppre hsuf]
    have hfin : msgLenFinish (acc ++ [dsuf ++ MSG_LENGTH_SEPARATOR ++ ppre])
        (acc.flatten.length + (dsuf ++ MSG_LENGTH_SEPARATOR ++ ppre).length)
        (dsuf ++ MSG_LENGTH_SEPARATOR ++ ppre).length dsuf.length =
        .ok (L, ppre) := by
      refine msgLenFinish_eval _ _ _ _ (acc.flatten ++ dsuf) ppre L ?_ ?_ ?_
      · simp [List.append_assoc]
      · simp only [List.length_append]
        omega
      · simpa using hparse
    cases rest with
    | nil => rw [msgLenLoop, hfin]
    | cons r rs => rw [msgLenLoop, hfin]
  | cons s ds' ih =>
    intro acc lastLen rest hds hsuf hparse hlen
    have hs : s ≠ [] ∧ s.all isDigit = true := hds s (by simp)
    have htot : acc.flatten.length < MAX_MSG_PREFIX_LENGTH := by
      simp only [List.length_append] at hlen
      omega
    show msgLenLoop acc acc.flatten.length lastLen none
        (s :: (ds' ++ (dsuf ++ MSG_LENGTH_SEPARATOR ++ ppre) :: rest)) = _
    rw [msgLenLoop]
    rw [if_pos htot, if_neg hs.1, bytesFind_digits_none s hs.2]
    have hfl : acc.flatten.length + s.length = (acc ++ [s]).flatten.length := by
      simp
    rw [hfl]
    refine ih (acc ++ [s]) s.length rest ?_ hsuf ?_ ?_
    · intro t ht
      exact hds t (by simp [ht])
    · have : (acc ++ [s]).flatten ++ ds'.flatten ++ dsuf =
          acc.flatten ++ (s :: ds').flatten ++ dsuf := by
        simp [List.append_assoc]
      rw [this]
      exact hparse
    · have : (acc ++ [s]).flatten ++ ds'.flatten ++ dsuf =
          acc.flatten ++ (s :: ds').flatten ++ dsuf := by
        simp [List.append_assoc]
      rw [this]
      exact hlen

/-- Running `_receive_msg_length` over a stream whose first shards carry
`digits ++ separator ++ start-of-payload` (separator wholly inside one
shard). -/
theorem receive_msg_length_run (dsuf ppre : List Nat) (L : Nat)
    (ds rest : List Shard)
    (hds : ∀ s ∈ ds, s ≠ [] ∧ s.all isDigit = true)
    (hsuf : dsuf.all isDigit = true)
    (hparse : parseDecimal (ds.flatten ++ dsuf) = some L)
    (hlen : (ds.flatten ++ dsuf).length < MAX_MSG_PREFIX_LENGTH) :
    receive_msg_length (ds ++ (dsuf ++ MSG_LENGTH_SEPARATOR ++ ppre) :: rest) =
      .ok ((L, ppre), rest) := by
  cases ds with
  | nil =>
    have hmid : dsuf ++ MSG_LENGTH_SEPARATOR ++ ppre ≠ [] := by
      simp [MSG_LENGTH_SEPARATOR]
    show receive_msg_length ((dsuf ++ MSG_LENGTH_SEPARATOR ++ ppre) :: rest) = _
    rw [receive_msg_length]
    rw [if_neg hmid, bytesFind_digits_sep dsuf ppre hsuf]
    have hfin : msgLenFinish [dsuf ++ MSG_LENGTH_SEPARATOR ++ ppre]
        (dsuf ++ MSG_LENGTH_SEPARATOR ++ ppre).length
        (dsuf ++ MSG_LENGTH_SEPARATOR ++ ppre).length dsuf.length =
        .ok (L, ppre) := by
      refine msgLenFinish_eval _ _ _ _ dsuf ppre L ?_ ?_ ?_
      · simp
      · omega
      · simpa using hparse
    cases rest with
    | nil => rw [msgLenLoop, hfin]
    | cons r rs => rw [msgLenLoop, hfin]
  | cons s ds' =>
    have hs : s ≠ [] ∧ s.all isDigit = true := hds s (by simp)
    show receive_msg_length (s :: (ds' ++ (dsuf ++ MSG_LENGTH_SEPARATOR ++ ppre) :: rest)) = _
    rw [receive_msg_length]
    rw [if_neg hs.1, bytesFind_digits_none s hs.2]
    have hfl : s.length = ([s] : List Shard).flatten.length := by simp
    rw [hfl]
    refine msgLenLoop_run dsuf ppre L ds' [s] ([s] : List Shard).flatten.length rest ?_ hsuf ?_ ?_
    · intro t ht
      exact hds t (by simp [ht])
    · have : ([s] : List Shard).flatten ++ ds'.flatten ++ dsuf =
          (s :: ds').flatten ++ dsuf := by simp [List.append_assoc]
      rw [this]
      exact hparse
    · have : ([s] : List Shard).flatten ++ ds'.flatten ++ dsuf =
          (s :: ds').flatten ++ dsuf := by simp [List.append_assoc]
      rw [this]
      exact hlen

/-- Running the payload-assembly loop over non-empty shards that together
complete the declared length consumes exactly those shards. -/
theorem recvPayloadLoop_run (L : Nat) :
    ∀ (ps acc rest : List Shard),
      (∀ s ∈ ps, s ≠ []) →
      acc.flatten.length + ps.flatten.length = L →
      recvPayloadLoop acc acc.flatten.length L (ps ++ rest) =
        .ok (acc.flatten ++ ps.flatten, rest) := by
  intro ps
  induction ps with
  | nil =>
    intro acc rest hps hlen
    have htot : acc.flatten.length = L := by simpa using hlen
    cases rest with
    | nil => simp [recvPayloadLoop, htot]
    | cons r rs => simp [recvPayloadLoop, htot]
  | cons s ps' ih =>
    intro acc rest hps hlen
    have hs : s ≠ [] := hps s (by simp)
    have hslen : 0 < s.length := List.length_pos.mpr hs
    have hlt : acc.flatten.length < L := by
      simp only [List.flatten_cons, List.length_append] at hlen
      omega
    show recvPayloadLoop acc acc.flatten.length L (s :: (ps' ++ rest)) = _
    rw [recvPayloadLoop]
    rw [if_pos hlt, if_neg hs]
    have hfl : acc.flatten.length + s.length = (acc ++ [s]).flatten.length := by
      simp
    rw [hfl]
    have hres := ih (acc ++ [s]) rest (fun t ht => hps t (by simp [ht])) (by
      simp only [List.flatten_append, List.flatten_cons, List.flatten_nil,
        List.append_nil, List.length_append] at hlen ⊢
      omega)
    rw [hres]
    simp [List.append_assoc]

/-- Running the raw receive pipeline over one complete frame
`digits ++ separator ++ P` split so that the separator lies wholly within a
single shard and no shard crosses the end of the frame: the declared length
and the payload are recovered exactly and the trailing stream is untouched. -/
theorem receive_raw_run (maxTotal : Nat) (P ppre dsuf : List Nat)
    (ds ps rest : List Shard)
    (hds : ∀ s ∈ ds, s ≠ [] ∧ s.all isDigit = true)
    (hsuf : dsuf.all isDigit = true)
    (hps : ∀ s ∈ ps, s ≠ [])
    (hP : ppre ++ ps.flatten = P)
    (hparse : parseDecimal (ds.flatten ++ dsuf) = some P.length)
    (hlen : (ds.flatten ++ dsuf).length < MAX_MSG_PREFIX_LENGTH)
    (hmax : P.length < maxTotal) :
    receive_raw maxTotal
        (ds ++ (dsuf ++ MSG_LENGTH_SEPARATOR ++ ppre) :: (ps ++ rest)) =
      .ok ((P.length, P), rest) := by
  unfold receive_raw
  rw [receive_msg_length_run dsuf ppre P.length ds (ps ++ rest) hds hsuf hparse hlen]
  dsimp only
  rw [if_pos hmax]
  have hrun := recvPayloadLoop_run P.length ps [ppre] rest hps (by
    simp only [List.flatten_cons, List.flatten_nil, List.append_nil]
    rw [← hP]
    simp)
  simp only [List.flatten_cons, List.flatten_nil, List.append_nil] at hrun
  rw [hrun]
  dsimp only
  rw [hP]

/-- If no shard ever contains the separator and the prefix-search budget is
exhausted by the available bytes, the length-discovery loop hits the
`assert length_end != -1` failure. -/
theorem msgLenLoop_nosep :
    ∀ (ss acc : List Shard) (total lastLen : Nat),
      (∀ s ∈ ss, s ≠ [] ∧ bytesFind s MSG_LENGTH_SEPARATOR = none) →
      MAX_MSG_PREFIX_LENGTH ≤ total + ss.flatten.length →
      msgLenLoop acc total lastLen none ss = .fatal "server did not send message length" := by
  intro ss
  induction ss with
  | nil =>
    intro acc total lastLen hss hbudget
    simp only [List.flatten_nil, List.length_nil, Nat.add_zero] at hbudget
    rw [msgLenLoop, if_neg (by omega)]
  | cons s rest ih =>
    intro acc total lastLen hss hbudget
    have hs := hss s (by simp)
    rw [msgLenLoop]
    by_cases htot : total < MAX_MSG_PREFIX_LENGTH
    · rw [if_pos htot, if_neg hs.1, hs.2]
      refine ih (acc ++ [s]) (total + s.length) s.length ?_ ?_
      · intro t ht
        exact hss t (by simp [ht])
      · simp only [List.flatten_cons, List.length_append] at hbudget
        omega
    · rw [if_neg htot]

/-- `_receive_msg_length` fails fatally when the separator is never found
within the bounded prefix-search budget. -/
theorem receive_msg_length_nosep (ss : List Shard) (hne : ss ≠ [])
    (hss : ∀ s ∈ ss, s ≠ [] ∧ bytesFind s MSG_LENGTH_SEPARATOR = none)
    (hbudget : MAX_MSG_PREFIX_LENGTH ≤ ss.flatten.length) :
    receive_msg_length ss = .fatal "server did not send message length" := by
  cases ss with
  | nil => exact absurd rfl hne
  | cons s rest =>
    have hs := hss s (by simp)
    rw [receive_msg_length, if_neg hs.1, hs.2]
    refine msgLenLoop_nosep rest [s] s.length s.length ?_ ?_
    · intro t ht
      exact hss t (by simp [ht])
    · simp only [List.flatten_cons, List.length_append] at hbudget
      omega

/-- Once more bytes than the declared length have been gathered, the
payload-assembly loop hits the `assert total == msg_length` failure. -/
theorem recvPayloadLoop_over (ss acc : List Shard) (total L : Nat) (h : L < total) :
    recvPayloadLoop acc total L ss = .fatal "message does not match length" := by
  cases ss with
  | nil => rw [recvPayloadLoop, if_neg (by omega), if_neg (by omega)]
  | cons s rest => rw [recvPayloadLoop, if_neg (by omega), if_neg (by omega)]

/-- The length-discovery loop only ever pops shards: the leftover stream of a
successful run is no longer than the input stream. -/
theorem msgLenLoop_consumes :
    ∀ (ss acc : List Shard) (total lastLen : Nat) (le : Option Nat)
      (x : Nat × List Nat) (ss' : List Shard),
      msgLenLoop acc total lastLen le ss = .ok (x, ss') → ss'.length ≤ ss.length := by
  intro ss
  induction ss with
  | nil =>
    intro acc total lastLen le x ss' h
    rw [msgLenLoop.eq_def] at h
    dsimp only at h
    split at h
    · split at h <;> simp_all
    · split at h <;> simp_all
  | cons s rest ih =>
    intro acc total lastLen le x ss' h
    rw [msgLenLoop.eq_def] at h
    dsimp only at h
    split at h
    · split at h <;> simp_all
    · split at h
      · split at h
        · simp_all
        · exact Nat.le_succ_of_le (ih _ _ _ _ _ _ h)
      · simp_all

/-- A successful `_receive_msg_length` consumes at least the first shard. -/
theorem receive_msg_length_consumes (ss : List Shard) (x : Nat × List Nat)
    (ss' : List Shard) (h : receive_msg_length ss = .ok (x, ss')) :
    ss'.length < ss.length := by
  cases ss with
  | nil => simp [receive_msg_length] at h
  | cons s rest =>
    rw [receive_msg_length] at h
    split at h
    · simp_all
    · exact Nat.lt_succ_of_le (msgLenLoop_consumes _ _ _ _ _ _ _ h)

/-- The payload-assembly loop only ever pops shards. -/
theorem recvPayloadLoop_consumes :
    ∀ (ss acc : List Shard) (total L : Nat) (p : List Nat) (ss' : List Shard),
      recvPayloadLoop acc total L ss = .ok (p, ss') → ss'.length ≤ ss.length := by
  intro ss
  induction ss with
  | nil =>
    intro acc total L p ss' h
    rw [recvPayloadLoop] at h
    split at h
    · simp_all
    · split at h <;> simp_all
  | cons s rest ih =>
    intro acc total L p ss' h
    rw [recvPayloadLoop] at h
    split at h
    · split at h
      · simp_all
      · exact Nat.le_succ_of_le (ih _ _ _ _ _ h)
    · split at h <;> simp_all

/-- A successful raw receive strictly consumes shards. -/
theorem receive_raw_consumes (maxTotal : Nat) (ss : List Shard)
    (x : Nat × List Nat) (ss' : List Shard)
    (h : receive_raw maxTotal ss = .ok (x, ss')) : ss'.length < ss.length := by
  unfold receive_raw at h
  split at h
  · rename_i heq
    split at h
    · split at h
      · rename_i hp
        simp only [Outcome.ok.injEq, Prod.mk.injEq] at h
        obtain ⟨hx, hrest⟩ := h
        subst hrest
        have h1 := receive_msg_length_consumes _ _ _ heq
        have h2 := recvPayloadLoop_consumes _ _ _ _ _ _ hp
        omega
      all_goals simp_all
    · simp_all
  all_goals simp_all

/-- A successful decoded receive strictly consumes shards. -/
theorem receive_data_consumes (maxTotal : Nat) (ss : List Shard)
    (v : Value) (ss' : List Shard)
    (h : receive_data maxTotal ss = .ok (v, ss')) : ss'.length < ss.length := by
  unfold receive_data at h
  split at h
  · rename_i heq
    split at h <;>
      (simp only [Outcome.ok.injEq, Prod.mk.injEq] at h;
       exact h.2 ▸ receive_raw_consumes _ _ _ _ heq)
  all_goals simp_all

/-- The post-loop code never blocks: it either returns or raises. -/
theorem msgLenFinish_ne_blocked (acc : List Shard) (total lastLen le : Nat) :
    msgLenFinish acc total lastLen le ≠ .blocked := by
  unfold msgLenFinish
  split <;> simp

/-- One-step evaluation of the length-discovery loop once the separator has
been found: the stream is left untouched. -/
theorem msgLenLoop_some_eval (acc : List Shard) (total lastLen le : Nat)
    (ss : List Shard) :
    msgLenLoop acc total lastLen (some le) ss =
      match msgLenFinish acc total lastLen le with
      | .ok r => .ok (r, ss)
      | .exit0 => .exit0
      | .blocked => .blocked
      | .fatal m => .fatal m := by
  cases ss <;> rfl

/-- One-step evaluation of the length-discovery loop on an exhausted stream
while still searching. -/
theorem msgLenLoop_none_nil_eval (acc : List Shard) (total lastLen : Nat) :
    msgLenLoop acc total lastLen none [] =
      if total < MAX_MSG_PREFIX_LENGTH then .blocked
      else .fatal "server did not send message length" := rfl

/-- One-step evaluation of the length-discovery loop on a fresh shard while
still searching. -/
theorem msgLenLoop_none_cons_eval (acc : List Shard) (total lastLen : Nat)
    (s : Shard) (rest : List Shard) :
    msgLenLoop acc total lastLen none (s :: rest) =
      if total < MAX_MSG_PREFIX_LENGTH then
        if s = [] then .exit0
        else
          msgLenLoop (acc ++ [s]) (total + s.length) s.length
            (bytesFind s MSG_LENGTH_SEPARATOR) rest
      else .fatal "server did not send message length" := rfl

/-- Appending further shards to a stream on which the length-discovery loop
succeeds does not change the result; the extra shards are carried over. -/
theorem msgLenLoop_ext_ok :
    ∀ (ss acc : List Shard) (total lastLen : Nat) (le : Option Nat)
      (x : Nat × List Nat) (ss' xs : List Shard),
      msgLenLoop acc total lastLen le ss = .ok (x, ss') →
      msgLenLoop acc total lastLen le (ss ++ xs) = .ok (x, ss' ++ xs) := by
  intro ss
  induction ss with
  | nil =>
    intro acc total lastLen le x ss' xs h
    match le with
    | some le' =>
      rw [msgLenLoop_some_eval] at h
      rw [List.nil_append, msgLenLoop_some_eval]
      cases hF : msgLenFinish acc total lastLen le' with
      | ok r =>
        rw [hF] at h
        simp only [Outcome.ok.injEq, Prod.mk.injEq] at h
        obtain ⟨hx, hss'⟩ := h
        subst hx
        subst hss'
        simp
      | exit0 => rw [hF] at h; simp at h
      | blocked => rw [hF] at h; simp at h
      | fatal m => rw [hF] at h; simp at h
    | none =>
      rw [msgLenLoop_none_nil_eval] at h
      split at h <;> simp_all
  | cons s rest ih =>
    intro acc total lastLen le x ss' xs h
    match le with
    | some le' =>
      rw [msgLenLoop_some_eval] at h
      rw [List.cons_append, msgLenLoop_some_eval]
      cases hF : msgLenFinish acc total lastLen le' with
      | ok r =>
        rw [hF] at h
        simp only [Outcome.ok.injEq, Prod.mk.injEq] at h
        obtain ⟨hx, hss'⟩ := h
        subst hx
        subst hss'
        simp
      | exit0 => rw [hF] at h; simp at h
      | blocked => rw [hF] at h; simp at h
      | fatal m => rw [hF] at h; simp at h
    | none =>
      rw [msgLenLoop_none_cons_eval] at h
      rw [List.cons_append, msgLenLoop_none_cons_eval]
      by_cases htot : total < MAX_MSG_PREFIX_LENGTH
      · rw [if_pos htot] at h ⊢
        by_cases hs : s = []
        · rw [if_pos hs] at h
          simp at h
        · rw [if_neg hs] at h ⊢
          exact ih _ _ _ _ _ _ xs h
      · rw [if_neg htot] at h
        simp at h

/-- If the length-discovery loop starves on a stream, then on the same stream
extended by a zero-byte read it exits with status 0 instead. -/
theorem msgLenLoop_ext_blocked :
    ∀ (ss acc : List Shard) (total lastLen : Nat) (le : Option Nat) (xs : List Shard),
      msgLenLoop acc total lastLen le ss = .blocked →
      msgLenLoop acc total lastLen le (ss ++ ([] : Shard) :: xs) = .exit0 := by
  intro ss
  induction ss with
  | nil =>
    intro acc total lastLen le xs h
    match le with
    | some le' =>
      rw [msgLenLoop_some_eval] at h
      cases hF : msgLenFinish acc total lastLen le' with
      | ok r => rw [hF] at h; simp at h
      | exit0 => rw [hF] at h; simp at h
      | blocked => exact absurd hF (msgLenFinish_ne_blocked _ _ _ _)
      | fatal m => rw [hF] at h; simp at h
    | none =>
      rw [msgLenLoop_none_nil_eval] at h
      rw [List.nil_append, msgLenLoop_none_cons_eval]
      split at h
      · rename_i htot
        rw [if_pos htot, if_pos rfl]
      · simp at h
  | cons s rest ih =>
    intro acc total lastLen le xs h
    match le with
    | some le' =>
      rw [msgLenLoop_some_eval] at h
      cases hF : msgLenFinish acc total lastLen le' with
      | ok r => rw [hF] at h; simp at h
      | exit0 => rw [hF] at h; simp at h
      | blocked => exact absurd hF (msgLenFinish_ne_blocked _ _ _ _)
      | fatal m => rw [hF] at h; simp at h
    | none =>
      rw [msgLenLoop_none_cons_eval] at h
      rw [List.cons_append, msgLenLoop_none_cons_eval]
      by_cases htot : total < MAX_MSG_PREFIX_LENGTH
      · rw [if_pos htot] at h ⊢
        by_cases hs : s = []
        · rw [if_pos hs] at h
          simp at h
        · rw [if_neg hs] at h ⊢
          exact ih _ _ _ _ xs h
      · rw [if_neg htot] at h
        simp at h

/-- One-step evaluation of the payload-assembly loop on an exhausted
stream. -/
theorem recvPayloadLoop_nil_eval (acc : List Shard) (total L : Nat) :
    recvPayloadLoop acc total L [] =
      if total < L then .blocked
      else if total = L then .ok (acc.flatten, [])
      else .fatal "message does not match length" := rfl

/-- One-step evaluation of the payload-assembly loop on a fresh shard. -/
theorem recvPayloadLoop_cons_eval (acc : List Shard) (total L : Nat)
    (s : Shard) (rest : List Shard) :
    recvPayloadLoop acc total L (s :: rest) =
      if total < L then
        if s = [] then .exit0
        else recvPayloadLoop (acc ++ [s]) (total + s.length) L rest
      else if total = L then .ok (acc.flatten, s :: rest)
      else .fatal "message does not match length" := rfl

/-- Appending further shards to a stream on which the payload-assembly loop
succeeds does not change the result; the extra shards are carried over. -/
theorem recvPayloadLoop_ext_ok :
    ∀ (ss acc : List Shard) (total L : Nat) (p : List Nat) (ss' xs : List Shard),
      recvPayloadLoop acc total L ss = .ok (p, ss') →
      recvPayloadLoop acc total L (ss ++ xs) = .ok (p, ss' ++ xs) := by
  intro ss
  induction ss with
  | nil =>
    intro acc total L p ss' xs h
    rw [recvPayloadLoop_nil_eval] at h
    rw [List.nil_append]
    by_cases hlt : total < L
    · rw [if_pos hlt] at h
      simp at h
    · rw [if_neg hlt] at h
      by_cases heq : total = L
      · rw [if_pos heq] at h
        simp only [Outcome.ok.injEq, Prod.mk.injEq] at h
        obtain ⟨hp, hss'⟩ := h
        subst hp
        subst hss'
        cases xs with
        | nil =>
          rw [recvPayloadLoop_nil_eval, if_neg hlt, if_pos heq]
          simp
        | cons y ys =>
          rw [recvPayloadLoop_cons_eval, if_neg hlt, if_pos heq]
          simp
      · rw [if_neg heq] at h
        simp at h
  | cons s rest ih =>
    intro acc total L p ss' xs h
    rw [recvPayloadLoop_cons_eval] at h
    rw [List.cons_append, recvPayloadLoop_cons_eval]
    by_cases hlt : total < L
    · rw [if_pos hlt] at h ⊢
      by_cases hs : s = []
      · rw [if_pos hs] at h
        simp at h
      · rw [if_neg hs] at h ⊢
        exact ih _ _ _ _ _ xs h
    · rw [if_neg hlt] at h ⊢
      by_cases heq : total = L
      · rw [if_pos heq] at h ⊢
        simp only [Outcome.ok.injEq, Prod.mk.injEq] at h
        obtain ⟨hp, hss'⟩ := h
        subst hp
        subst hss'
        simp
      · rw [if_neg heq] at h
        simp at h

/-- If the payload-assembly loop starves on a stream, then on the same stream
extended by a zero-byte read it exits with status 0 instead. -/
theorem recvPayloadLoop_ext_blocked :
    ∀ (ss acc : List Shard) (total L : Nat) (xs : List Shard),
      recvPayloadLoop acc total L ss = .blocked →
      recvPayloadLoop acc total L (ss ++ ([] : Shard) :: xs) = .exit0 := by
  intro ss
  induction ss with
  | nil =>
    intro acc total L xs h
    rw [recvPayloadLoop_nil_eval] at h
    rw [List.nil_append, recvPayloadLoop_cons_eval]
    by_cases hlt : total < L
    · rw [if_pos hlt, if_pos rfl]
    · rw [if_neg hlt] at h
      split at h <;> simp_all
  | cons s rest ih =>
    intro acc total L xs h
    rw [recvPayloadLoop_cons_eval] at h
    rw [List.cons_append, recvPayloadLoop_cons_eval]
    by_cases hlt : total < L
    · rw [if_pos hlt] at h ⊢
      by_cases hs : s = []
      · rw [if_pos hs] at h
        simp at h
      · rw [if_neg hs] at h ⊢
        exact ih _ _ _ xs h
    · rw [if_neg hlt] at h
      split at h <;> simp_all

/-- Extension property for `_receive_msg_length`, successful case. -/
theorem receive_msg_length_ext_ok (ss : List Shard) (x : Nat × List Nat)
    (ss' xs : List Shard) (h : receive_msg_length ss = .ok (x, ss')) :
    receive_msg_length (ss ++ xs) = .ok (x, ss' ++ xs) := by
  cases ss with
  | nil => simp [receive_msg_length] at h
  | cons s rest =>
    by_cases hs : s = []
    · simp [receive_msg_length, hs] at h
    · rw [receive_msg_length] at h
      rw [if_neg hs] at h
      rw [show (s :: rest) ++ xs = s :: (rest ++ xs) from rfl, receive_msg_length]
      rw [if_neg hs]
      exact msgLenLoop_ext_ok _ _ _ _ _ _ _ _ h

/-- A starved `_receive_msg_length` turns into a clean exit when the stream
is extended by a zero-byte read. -/
theorem receive_msg_length_ext_blocked (ss xs : List Shard)
    (h : receive_msg_length ss = .blocked) :
    receive_msg_length (ss ++ ([] : Shard) :: xs) = .exit0 := by
  cases ss with
  | nil =>
    rw [List.nil_append, receive_msg_length]
    rw [if_pos rfl]
  | cons s rest =>
    by_cases hs : s = []
    · simp [receive_msg_length, hs] at h
    · rw [receive_msg_length, if_neg hs] at h
      rw [show (s :: rest) ++ ([] : Shard) :: xs = s :: (rest ++ ([] : Shard) :: xs)
        from rfl, receive_msg_length, if_neg hs]
      exact msgLenLoop_ext_blocked _ _ _ _ _ _ h

/-- Extension property for the raw receive pipeline, successful case. -/
theorem receive_raw_ext_ok (maxTotal : Nat) (ss : List Shard)
    (x : Nat × List Nat) (ss' xs : List Shard)
    (h : receive_raw maxTotal ss = .ok (x, ss')) :
    receive_raw maxTotal (ss ++ xs) = .ok (x, ss' ++ xs) := by
  unfold receive_raw at h ⊢
  cases hm : receive_msg_length ss with
  | ok y =>
    obtain ⟨⟨L, extra⟩, ss1⟩ := y
    rw [hm] at h
    dsimp only at h
    rw [receive_msg_length_ext_ok ss _ _ xs hm]
    dsimp only
    by_cases hL : L < maxTotal
    · rw [if_pos hL] at h ⊢
      cases hp : recvPayloadLoop [extra] extra.length L ss1 with
      | ok z =>
        obtain ⟨p, rest⟩ := z
        rw [hp] at h
        dsimp only at h
        rw [recvPayloadLoop_ext_ok ss1 _ _ _ _ _ xs hp]
        dsimp only
        simp only [Outcome.ok.injEq, Prod.mk.injEq] at h
        obtain ⟨hx, hrest⟩ := h
        subst hx
        subst hrest
        rfl
      | exit0 => rw [hp] at h; simp at h
      | blocked => rw [hp] at h; simp at h
      | fatal m => rw [hp] at h; simp at h
    · rw [if_neg hL] at h
      simp at h
  | exit0 => rw [hm] at h; simp at h
  | blocked => rw [hm] at h; simp at h
  | fatal m => rw [hm] at h; simp at h

/-- A starved raw receive turns into a clean exit when the stream is extended
by a zero-byte read. -/
theorem receive_raw_ext_blocked (maxTotal : Nat) (ss xs : List Shard)
    (h : receive_raw maxTotal ss = .blocked) :
    receive_raw maxTotal (ss ++ ([] : Shard) :: xs) = .exit0 := by
  unfold receive_raw at h ⊢
  cases hm : receive_msg_length ss with
  | ok y =>
    obtain ⟨⟨L, extra⟩, ss1⟩ := y
    rw [hm] at h
    dsimp only at h
    rw [receive_msg_length_ext_ok ss _ _ (([] : Shard) :: xs) hm]
    dsimp only
    by_cases hL : L < maxTotal
    · rw [if_pos hL] at h ⊢
      cases hp : recvPayloadLoop [extra] extra.length L ss1 with
      | ok z => rw [hp] at h; obtain ⟨p, rest⟩ := z; simp at h
      | exit0 => rw [hp] at h; simp at h
      | blocked => rw [recvPayloadLoop_ext_blocked ss1 _ _ _ xs hp]
      | fatal m => rw [hp] at h; simp at h
    · rw [if_neg hL] at h
      simp at h
  | exit0 => rw [hm] at h; simp at h
  | blocked => rw [receive_msg_length_ext_blocked ss xs hm]
  | fatal m => rw [hm] at h; simp at h

/-- Extension property for the decoded receive, successful case. -/
theorem receive_data_ext_ok (maxTotal : Nat) (ss : List Shard) (v : Value)
    (ss' xs : List Shard) (h : receive_data maxTotal ss = .ok (v, ss')) :
    receive_data maxTotal (ss ++ xs) = .ok (v, ss' ++ xs) := by
  unfold receive_data at h ⊢
  cases hr : receive_raw maxTotal ss with
  | ok y =>
    obtain ⟨⟨L, raw⟩, rest⟩ := y
    rw [hr] at h
    dsimp only at h
    rw [receive_raw_ext_ok maxTotal ss _ _ xs hr]
    dsimp only
    cases hd : decode_data raw with
    | some w =>
      rw [hd] at h
      simp only [Outcome.ok.injEq, Prod.mk.injEq] at h
      obtain ⟨hv, hrest⟩ := h
      subst hv
      subst hrest
      rfl
    | none =>
      rw [hd] at h
      simp only [Outcome.ok.injEq, Prod.mk.injEq] at h
      obtain ⟨hv, hrest⟩ := h
      subst hv
      subst hrest
      rfl
  | exit0 => rw [hr] at h; simp at h
  | blocked => rw [hr] at h; simp at h
  | fatal m => rw [hr] at h; simp at h

/-- A starved decoded receive turns into a clean exit when the stream is
extended by a zero-byte read. -/
theorem receive_data_ext_blocked (maxTotal : Nat) (ss xs : List Shard)
    (h : receive_data maxTotal ss = .blocked) :
    receive_data maxTotal (ss ++ ([] : Shard) :: xs) = .exit0 := by
  unfold receive_data at h ⊢
  cases hr : receive_raw maxTotal ss with
  | ok y =>
    obtain ⟨⟨L, raw⟩, rest⟩ := y
    rw [hr] at h
    dsimp only at h
    cases hd : decode_data raw with
    | some w => rw [hd] at h; simp at h
    | none => rw [hd] at h; simp at h
  | exit0 => rw [hr] at h; simp at h
  | blocked => rw [receive_raw_ext_blocked maxTotal ss xs hr]
  | fatal m => rw [hr] at h; simp at h

/-- If the notice loop starves somewhere (a read found no data), then running
it on the same stream extended by a zero-byte read at that point exits with
status 0, having sent exactly the same number of acknowledgements. -/
theorem waitLoop_ext :
    ∀ (f₁ mt : Nat) (ss : List Shard) (f₂ : Nat) (xs : List Shard) (k : Nat),
      ss.length < f₁ → ss.length < f₂ →
      waitLoop mt f₁ ss = (k, .blocked) →
      waitLoop mt f₂ (ss ++ ([] : Shard) :: xs) = (k, .exit0) := by
  intro f₁
  induction f₁ with
  | zero => intro mt ss f₂ xs k h1 h2 h; omega
  | succ f ih =>
    intro mt ss f₂ xs k h1 h2 h
    match f₂, h2 with
    | g + 1, _ =>
      rw [waitLoop] at h
      rw [waitLoop]
      cases hr : receive_data mt ss with
      | ok vr =>
        obtain ⟨v, rest⟩ := vr
        rw [hr] at h
        cases v with
        | str s =>
          dsimp only at h
          rw [Prod.mk.injEq] at h
          obtain ⟨hk, hblk⟩ := h
          have hcons := receive_data_consumes mt ss _ _ hr
          have hpair : waitLoop mt f rest = ((waitLoop mt f rest).1, .blocked) := by
            rw [← hblk]
          have hext := ih mt rest g xs (waitLoop mt f rest).1
            (by omega) (by omega) hpair
          rw [receive_data_ext_ok mt ss _ _ (([] : Shard) :: xs) hr]
          dsimp only
          rw [hext]
          simp [hk]
        | batch b =>
          dsimp only at h
          simp at h
      | exit0 =>
        rw [hr] at h
        simp at h
      | blocked =>
        rw [hr] at h
        rw [Prod.mk.injEq] at h
        obtain ⟨hk, _⟩ := h
        rw [receive_data_ext_blocked mt ss xs hr]
        simp [hk]
      | fatal m =>
        rw [hr] at h
        simp at h

/-- From a counter standing `q` episode-batches short of the configured
maximum, the session loop performs exactly `q` further episode-batches. -/
theorem run_session_exact :
    ∀ (q fuel N start : Nat), 0 < N → q ≤ fuel →
      run_session fuel (some (start + q * N)) N start = some q := by
  intro q
  induction q with
  | zero =>
    intro fuel N start hN hf
    unfold run_session is_done HeartsRequestHandler.is_done
    simp
  | succ q ih =>
    intro fuel N start hN hf
    match fuel, hf with
    | f + 1, _ =>
      unfold run_session
      have hdone : is_done start (some (start + (q + 1) * N)) = false := by
        unfold is_done HeartsRequestHandler.is_done
        simp only [decide_eq_false_iff_not, not_le]
        have : 0 < (q + 1) * N := by positivity
        omega
      rw [hdone]
      simp only [Bool.false_eq_true, if_false]
      have hshift : start + (q + 1) * N = (start + N) + q * N := by ring
      rw [hshift, ih f N (start + N) hN (by omega)]
      rfl

/-- With no maximum configured, the session loop never terminates on its own:
every finite fuel is exhausted. -/
theorem run_session_none :
    ∀ (fuel N start : Nat), run_session fuel none N start = none := by
  intro fuel
  induction fuel with
  | zero => intro N start; rfl
  | succ f ih =>
    intro N start
    unfold run_session
    rw [show is_done start none = false from rfl]
    simp only [Bool.false_eq_true, if_false]
    rw [ih]
    rfl

/-- A non-negative in-range index reads the addressed slot. -/
theorem pyGet_nonneg {α : Type} (xs : List α) (i : Int) (d : α)
    (h0 : 0 ≤ i) (h1 : i < (xs.length : Int)) :
    pyGet xs i = .ok (xs.getD i.toNat d) := by
  have hnat : i.toNat < xs.length := by omega
  have hneg : ¬ i < 0 := by omega
  simp [pyGet, hneg, h0, h1, List.getD_eq_get xs d hnat]

/-- A non-negative in-range index writes the addressed slot. -/
theorem pySet_nonneg {α : Type} (xs : List α) (i : Int) (v : α)
    (h0 : 0 ≤ i) (h1 : i < (xs.length : Int)) :
    pySet xs i v = .ok (xs.set i.toNat v) := by
  have hneg : ¬ i < 0 := by omega
  simp [pySet, hneg, h0, h1]

/-- A negative in-range index reads exactly what the non-negative index
`length + i` reads: Python silently aliases from the end. -/
theorem pyGet_neg {α : Type} (xs : List α) (i : Int)
    (h1 : -(xs.length : Int) ≤ i) (h2 : i < 0) :
    pyGet xs i = pyGet xs ((xs.length : Int) + i) := by
  have hneg : ¬ ((xs.length : Int) + i) < 0 := by omega
  simp [pyGet, hneg, h2]

/-- A negative in-range index writes exactly where the non-negative index
`length + i` writes. -/
theorem pySet_neg {α : Type} (xs : List α) (i : Int) (v : α)
    (h1 : -(xs.length : Int) ≤ i) (h2 : i < 0) :
    pySet xs i v = pySet xs ((xs.length : Int) + i) v := by
  have hneg : ¬ ((xs.length : Int) + i) < 0 := by omega
  simp [pySet, hneg, h2]

/-- `_take_indices` over valid non-negative indices gathers the addressed
slots in the order the indices are given. -/
theorem take_indices_valid {α : Type} (xs : List α) (d : α) :
    ∀ (is : List Int), (∀ i ∈ is, 0 ≤ i ∧ i < (xs.length : Int)) →
      take_indices xs is = .ok (is.map fun i => xs.getD i.toNat d) := by
  intro is
  induction is with
  | nil => intro hv; rfl
  | cons i is' ih =>
    intro hv
    have h := hv i (by simp)
    rw [take_indices, pyGet_nonneg xs i d h.1 h.2]
    dsimp only
    rw [ih (fun t ht => hv t (by simp [ht]))]
    rfl

/-- Inversion of a successful non-negative write. -/
theorem pySet_ok_nonneg_inv {α : Type} (values : List α) (i : Int) (v : α)
    (w : List α) (h0 : 0 ≤ i) (h : pySet values i v = .ok w) :
    i < (values.length : Int) ∧ w = values.set i.toNat v := by
  have hneg : ¬ i < 0 := by omega
  unfold pySet at h
  dsimp only at h
  rw [if_neg hneg] at h
  split at h
  · rename_i hc
    simp only [Outcome.ok.injEq] at h
    exact ⟨hc.2, h.symm⟩
  · simp at h

/-- One-step evaluations of the scatter loop. -/
theorem updateIndicesGo_nil_eval {α : Type} (values : List α) (vs : List α) :
    updateIndicesGo values [] vs = .ok values := by cases vs <;> rfl

/-- The scatter loop on an exhausted value list (Python `zip` stops). -/
theorem updateIndicesGo_nil2_eval {α : Type} (values : List α) (i : Int)
    (is : List Int) : updateIndicesGo values (i :: is) [] = .ok values := rfl

/-- One write step of the scatter loop. -/
theorem updateIndicesGo_cons_eval {α : Type} (values : List α) (i : Int)
    (is : List Int) (v : α) (vs : List α) :
    updateIndicesGo values (i :: is) (v :: vs) =
      match pySet values i v with
      | .ok w => updateIndicesGo w is vs
      | .exit0 => .exit0
      | .blocked => .blocked
      | .fatal m => .fatal m := rfl

/-- The scatter loop leaves every slot whose index is not listed untouched. -/
theorem updateIndicesGo_get?_not_mem {α : Type} :
    ∀ (is : List Int) (vs values out : List α) (j : Nat),
      updateIndicesGo values is vs = .ok out →
      (∀ i ∈ is, 0 ≤ i) →
      ((j : Int) ∉ is) →
      out[j]? = values[j]? := by
  intro is
  induction is with
  | nil =>
    intro vs values out j h hnn hj
    rw [updateIndicesGo_nil_eval] at h
    simp only [Outcome.ok.injEq] at h
    rw [h]
  | cons i is' ih =>
    intro vs values out j h hnn hj
    cases vs with
    | nil =>
      rw [updateIndicesGo_nil2_eval] at h
      simp only [Outcome.ok.injEq] at h
      rw [h]
    | cons v vs' =>
      rw [updateIndicesGo_cons_eval] at h
      cases hset : pySet values i v with
      | ok values' =>
        rw [hset] at h
        dsimp only at h
        have h0i : (0 : Int) ≤ i := hnn i (by simp)
        have hinv := pySet_ok_nonneg_inv values i v values' h0i hset
        have hne : i.toNat ≠ j := by
          have hji : (j : Int) ≠ i := fun hc => hj (by simp [hc])
          omega
        have hrest := ih vs' values' out j h
          (fun t ht => hnn t (by simp [ht]))
          (fun hc => hj (by simp [hc]))
        rw [hrest, hinv.2, List.getElem?_set_ne hne]
      | exit0 => rw [hset] at h; simp at h
      | blocked => rw [hset] at h; simp at h
      | fatal m => rw [hset] at h; simp at h

/-- With pairwise-distinct non-negative indices, the scatter loop writes the
`k`-th new value into the slot addressed by the `k`-th index. -/
theorem updateIndicesGo_get?_at {α : Type} :
    ∀ (is : List Int) (vs values out : List α) (k : Nat) (i : Int) (v : α),
      updateIndicesGo values is vs = .ok out →
      (∀ i' ∈ is, 0 ≤ i') →
      is.Nodup →
      is[k]? = some i → vs[k]? = some v →
      out[i.toNat]? = some v := by
  intro is
  induction is with
  | nil => intro vs values out k i v h hnn hnd hik hvk; simp at hik
  | cons i0 is' ih =>
    intro vs values out k i v h hnn hnd hik hvk
    cases vs with
    | nil => simp at hvk
    | cons v0 vs' =>
      rw [updateIndicesGo_cons_eval] at h
      cases hset : pySet values i0 v0 with
      | ok values' =>
        rw [hset] at h
        dsimp only at h
        have h00 : (0 : Int) ≤ i0 := hnn i0 (by simp)
        have hinv := pySet_ok_nonneg_inv values i0 v0 values' h00 hset
        rw [List.nodup_cons] at hnd
        cases k with
        | zero =>
          simp only [List.getElem?_cons_zero, Option.some.injEq] at hik hvk
          subst hik
          subst hvk
          have hnotmem : ((i0.toNat : Int)) ∉ is' := by
            have hcast : ((i0.toNat : Nat) : Int) = i0 := by omega
            rw [hcast]
            exact hnd.1
          have hpres := updateIndicesGo_get?_not_mem is' vs' values' out i0.toNat h
            (fun t ht => hnn t (by simp [ht])) hnotmem
          rw [hpres, hinv.2]
          exact List.getElem?_set_self (by omega)
        | succ k' =>
          simp only [List.getElem?_cons_succ] at hik hvk
          exact ih vs' values' out k' i v h
            (fun t ht => hnn t (by simp [ht])) hnd.2 hik hvk
      | exit0 => rw [hset] at h; simp at h
      | blocked => rw [hset] at h; simp at h
      | fatal m => rw [hset] at h; simp at h

/-- `_update_indices` leaves every slot whose index is not listed
untouched. -/
theorem update_indices_get?_not_mem {α : Type} (values : List α)
    (is : List Int) (vs out : List α) (j : Nat)
    (h : update_indices values is vs = .ok out)
    (hnn : ∀ i ∈ is, 0 ≤ i) (hj : (j : Int) ∉ is) :
    out[j]? = values[j]? := by
  unfold update_indices at h
  split at h
  · exact updateIndicesGo_get?_not_mem is vs values out j h hnn hj
  · simp at h

/-- `_update_indices` writes the `k`-th value at the `k`-th listed index. -/
theorem update_indices_get?_at {α : Type} (values : List α)
    (is : List Int) (vs out : List α) (k : Nat) (i : Int) (v : α)
    (h : update_indices values is vs = .ok out)
    (hnn : ∀ i' ∈ is, 0 ≤ i') (hnd : is.Nodup)
    (hik : is[k]? = some i) (hvk : vs[k]? = some v) :
    out[i.toNat]? = some v := by
  unfold update_indices at h
  split at h
  · exact updateIndicesGo_get?_at is vs values out k i v h hnn hnd hik hvk
  · simp at h

/-- Gathered history with at least one undefined slot collapses the whole
argument to the no-history marker. -/
theorem mask_arg_none {α : Type} (xs : List (Option α))
    (h : ∃ x ∈ xs, x = none) : mask_arg xs = none := by
  unfold mask_arg
  rw [if_pos]
  rw [List.any_eq_true]
  obtain ⟨x, hx, hxn⟩ := h
  exact ⟨x, hx, by simp [hxn]⟩

/-- Gathered history with no undefined slot is passed through unchanged. -/
theorem mask_arg_some {α : Type} (xs : List (Option α))
    (h : ∀ x ∈ xs, x ≠ none) : mask_arg xs = some xs := by
  unfold mask_arg
  rw [if_neg]
  rw [List.any_eq_true]
  rintro ⟨x, hx, hxn⟩
  exact h x hx (by simpa using hxn)

/-- A sequenced comprehension keeps positions: if the whole comprehension
succeeded and position `k` held `some v`, the result holds `v` there. -/
theorem seqOption_get? {α : Type} :
    ∀ (os : List (Option α)) (xs : List α) (k : Nat) (v : α),
      seqOption os = some xs → os[k]? = some (some v) → xs[k]? = some v := by
  intro os
  induction os with
  | nil => intro xs k v h hk; simp at hk
  | cons o os' ih =>
    intro xs k v h hk
    cases o with
    | none => simp [seqOption] at h
    | some w =>
      rw [seqOption] at h
      cases hs : seqOption os' with
      | none => rw [hs] at h; simp at h
      | some ys =>
        rw [hs] at h
        simp only [Option.map_some', Option.some.injEq] at h
        subst h
        cases k with
        | zero => simp_all
        | succ k' =>
          simp only [List.getElem?_cons_succ] at hk ⊢
          exact ih ys k' v hs hk

/-- A successful sequencing preserves length. -/
theorem seqOption_length {α : Type} :
    ∀ (os : List (Option α)) (xs : List α),
      seqOption os = some xs → xs.length = os.length := by
  intro os
  induction os with
  | nil => intro xs h; simp [seqOption] at h; simp [← h]
  | cons o os' ih =>
    intro xs h
    cases o with
    | none => simp [seqOption] at h
    | some w =>
      rw [seqOption] at h
      cases hs : seqOption os' with
      | none => rw [hs] at h; simp at h
      | some ys =>
        rw [hs] at h
        simp only [Option.map_some', Option.some.injEq] at h
        subst h
        simp [ih ys hs]

/-- The destructured extensions keep positions. -/
theorem allExts_get? :
    ∀ (data : List BEntry)
      (exts : List ((List (String × Int)) × (List (String × Bool)) × Unit))
      (k : Nat) (e : BEntry)
      (x : (List (String × Int)) × (List (String × Bool)) × Unit),
      allExts data = some exts → data[k]? = some e → e.ext = some x →
      exts[k]? = some x := by
  intro data
  induction data with
  | nil => intro exts k e x h hk hx; simp at hk
  | cons e0 data' ih =>
    intro exts k e x h hk hx
    rw [allExts] at h
    cases he0 : e0.ext with
    | none => rw [he0] at h; simp at h
    | some x0 =>
      rw [he0] at h
      cases hs : allExts data' with
      | none => rw [hs] at h; simp at h
      | some exts' =>
        rw [hs] at h
        simp only [Option.map_some', Option.some.injEq] at h
        subst h
        cases k with
        | zero =>
          simp only [List.getElem?_cons_zero, Option.some.injEq] at hk ⊢
          subst hk
          rw [he0] at hx
          simp only [Option.some.injEq] at hx
          rw [hx]
        | succ k' =>
          simp only [List.getElem?_cons_succ] at hk ⊢
          exact ih exts' k' e x hs hk hx

/-- The extension-collecting pass preserves length. -/
theorem allExts_length :
    ∀ (data : List BEntry)
      (exts : List ((List (String × Int)) × (List (String × Bool)) × Unit)),
      allExts data = some exts → exts.length = data.length := by
  intro data
  induction data with
  | nil => intro exts h; simp [allExts] at h; simp [← h]
  | cons e0 data' ih =>
    intro exts h
    rw [allExts] at h
    cases he0 : e0.ext with
    | none => rw [he0] at h; simp at h
    | some x0 =>
      rw [he0] at h
      cases hs : allExts data' with
      | none => rw [hs] at h; simp at h
      | some exts' =>
        rw [hs] at h
        simp only [Option.map_some', Option.some.injEq] at h
        subst h
        simp [ih exts' hs]

/-- Inversion of a successful reward phase: the episode-completion flag comes
from the first entry's done mapping, and the resulting previous-reward array
leaves every slot whose index is not in the batch untouched; with distinct
valid indices, the slot at each listed index receives that entry's own
`spi`-keyed reward. -/
theorem rewardPhase_ok_inv (spi : String) (pr : List (Option Int))
    (data : List BEntry) (first : BEntry) (pr' : List (Option Int)) (b : Bool)
    (h : rewardPhase spi pr data first = .ok (pr', b))
    (hnn : ∀ i ∈ data.map (·.index), 0 ≤ i) :
    (∀ j : Nat, ((j : Int)) ∉ data.map (·.index) → pr'[j]? = pr[j]?) ∧
    ((data.map (·.index)).Nodup → first.ext ≠ none →
      ∀ (k : Nat) (e : BEntry)
        (x : (List (String × Int)) × (List (String × Bool)) × Unit) (r : Int),
        data[k]? = some e → e.ext = some x → List.lookup spi x.1 = some r →
        pr'[e.index.toNat]? = some (some r)) := by
  unfold rewardPhase at h
  split at h
  · rename_i hfe
    simp only [Outcome.ok.injEq, Prod.mk.injEq] at h
    obtain ⟨hpr, hb⟩ := h
    subst hpr
    refine ⟨fun j hj => rfl, fun hnd hfe' => absurd hfe hfe'⟩
  · rename_i firstExt hfe
    split at h
    · simp at h
    · rename_i exts hexts
      split at h
      · simp at h
      · rename_i rewards hrew
        cases hupd : update_indices pr (data.map (·.index)) (rewards.map some) with
        | ok pr2 =>
          rw [hupd] at h
          dsimp only at h
          split at h
          · simp at h
          · rename_i b0 hb0
            simp only [Outcome.ok.injEq, Prod.mk.injEq] at h
            obtain ⟨hpr, hb⟩ := h
            subst hpr
            constructor
            · intro j hj
              exact update_indices_get?_not_mem pr _ _ pr2 j hupd hnn hj
            · intro hnd _ k e x r hk hx hr
              have hik : (data.map (·.index))[k]? = some e.index := by
                rw [List.getElem?_map, hk]
                rfl
              have hxk : exts[k]? = some x := allExts_get? data exts k e x hexts hk hx
              have hosk : (exts.map (fun y => List.lookup spi y.1))[k]? =
                  some (some r) := by
                rw [List.getElem?_map, hxk]
                simp [hr]
              have hrk : rewards[k]? = some r :=
                seqOption_get? _ rewards k r hrew hosk
              have hvk : (rewards.map some)[k]? = some (some r) := by
                rw [List.getElem?_map, hrk]
                rfl
              exact update_indices_get?_at pr _ _ pr2 k e.index (some r)
                hupd hnn hnd hik hvk
        | exit0 => rw [hupd] at h; simp at h
        | blocked => rw [hupd] at h; simp at h
        | fatal m => rw [hupd] at h; simp at h

/-- Inversion of a successful action phase: the previous-reward array is
passed through unchanged, and every slot of the decision-state and
previous-action arrays whose index is not in the batch is untouched. -/
theorem actionPhase_ok_inv {St Act : Type}
    (decideFn : List Nat → List St → Option (List (Option Act)) →
      Option (List (Option Int)) → List Act × List St)
    (spi : String) (states : List St) (pa : List (Option Act))
    (pr' : List (Option Int)) (data : List BEntry)
    (sends : List (List Act)) (res : RoundResult St Act)
    (h : actionPhase decideFn spi states pa pr' data = (sends, .ok res))
    (hnn : ∀ i ∈ data.map (·.index), 0 ≤ i) :
    res.rewardsOf = pr' ∧
    ∀ j : Nat, ((j : Int)) ∉ data.map (·.index) →
      res.statesOf[j]? = states[j]? ∧ res.actionsOf[j]? = pa[j]? := by
  unfold actionPhase at h
  split at h
  · simp at h
  · rename_i obssV hobs
    split at h
    · rename_i mpa hmpa
      split at h
      · rename_i mpr hmpr
        split at h
        · rename_i sts hsts
          dsimp only at h
          split at h
          · rename_i states' hupd1
            split at h
            · rename_i pa2 hupd2
              rw [Prod.mk.injEq] at h
              obtain ⟨hsends, hres⟩ := h
              simp only [Outcome.ok.injEq] at hres
              subst hres
              refine ⟨rfl, fun j hj => ⟨?_, ?_⟩⟩
              · exact update_indices_get?_not_mem states _ _ states' j hupd1 hnn hj
              · exact update_indices_get?_not_mem pa _ _ pa2 j hupd2 hnn hj
            · simp at h
            · simp at h
            · simp at h
          · simp at h
          · simp at h
          · simp at h
        · simp at h
        · simp at h
        · simp at h
      · simp at h
      · simp at h
      · simp at h
    · simp at h
    · simp at h
    · simp at h

/-- Inversion of a successful round: the resulting arrays agree with the
input arrays on every slot whose index is not in the batch, and the
previous-reward array is exactly the reward phase's output. -/
theorem round_step_ok_frame {St Act : Type}
    (decideFn : List Nat → List St → Option (List (Option Act)) →
      Option (List (Option Int)) → List Act × List St)
    (spi : String) (states : List St) (pa : List (Option Act))
    (pr : List (Option Int)) (data : List BEntry)
    (sends : List (List Act)) (res : RoundResult St Act)
    (h : round_step decideFn spi states pa pr data = (sends, .ok res))
    (hnn : ∀ i ∈ data.map (·.index), 0 ≤ i) :
    ∀ j : Nat, ((j : Int)) ∉ data.map (·.index) →
      res.statesOf[j]? = states[j]? ∧ res.actionsOf[j]? = pa[j]? ∧
        res.rewardsOf[j]? = pr[j]? := by
  unfold round_step at h
  cases data with
  | nil => simp at h
  | cons first dtail =>
    dsimp only at h
    cases hrp : rewardPhase spi pr (first :: dtail) first with
    | ok prb =>
      obtain ⟨pr2, b⟩ := prb
      rw [hrp] at h
      have hinv := rewardPhase_ok_inv spi pr (first :: dtail) first pr2 b hrp hnn
      cases b with
      | true =>
        dsimp only at h
        rw [Prod.mk.injEq] at h
        obtain ⟨hsends, hres⟩ := h
        simp only [Outcome.ok.injEq] at hres
        subst hres
        intro j hj
        exact ⟨rfl, rfl, hinv.1 j hj⟩
      | false =>
        dsimp only at h
        have hap := actionPhase_ok_inv decideFn spi states pa pr2
          (first :: dtail) sends res h hnn
        intro j hj
        refine ⟨(hap.2 j hj).1, (hap.2 j hj).2, ?_⟩
        rw [hap.1, hinv.1 j hj]
    | exit0 => rw [hrp] at h; simp at h
    | blocked => rw [hrp] at h; simp at h
    | fatal m => rw [hrp] at h; simp at h

/-- Inversion of a successful round, reward content: with an all-extended
batch over distinct valid indices, the slot at each listed index receives
that entry's own `spi`-keyed reward component. -/
theorem round_step_ok_rewards {St Act : Type}
    (decideFn : List Nat → List St → Option (List (Option Act)) →
      Option (List (Option Int)) → List Act × List St)
    (spi : String) (states : List St) (pa : List (Option Act))
    (pr : List (Option Int)) (data : List BEntry)
    (sends : List (List Act)) (res : RoundResult St Act)
    (h : round_step decideFn spi states pa pr data = (sends, .ok res))
    (hnn : ∀ i ∈ data.map (·.index), 0 ≤ i)
    (hnd : (data.map (·.index)).Nodup)
    (hext : ∀ e ∈ data, e.ext ≠ none) :
    ∀ (k : Nat) (e : BEntry)
      (x : (List (String × Int)) × (List (String × Bool)) × Unit) (r : Int),
      data[k]? = some e → e.ext = some x → List.lookup spi x.1 = some r →
      res.rewardsOf[e.index.toNat]? = some (some r) := by
  unfold round_step at h
  cases data with
  | nil => simp at h
  | cons first dtail =>
    dsimp only at h
    cases hrp : rewardPhase spi pr (first :: dtail) first with
    | ok prb =>
      obtain ⟨pr2, b⟩ := prb
      rw [hrp] at h
      have hinv := rewardPhase_ok_inv spi pr (first :: dtail) first pr2 b hrp hnn
      have hwrites := hinv.2 hnd (hext first (by simp))
      cases b with
      | true =>
        dsimp only at h
        rw [Prod.mk.injEq] at h
        obtain ⟨hsends, hres⟩ := h
        simp only [Outcome.ok.injEq] at hres
        subst hres
        intro k e x r hk hx hr
        exact hwrites k e x r hk hx hr
      | false =>
        dsimp only at h
        have hap := actionPhase_ok_inv decideFn spi states pa pr2
          (first :: dtail) sends res h hnn
        intro k e x r hk hx hr
        rw [hap.1]
        exact hwrites k e x r hk hx hr
    | exit0 => rw [hrp] at h; simp at h
    | blocked => rw [hrp] at h; simp at h
    | fatal m => rw [hrp] at h; simp at h

/-- Reading at index `i` is reading at its Python-resolved non-negative
counterpart. -/
theorem pyGet_resolve_eq {α : Type} (xs : List α) (i : Int)
    (h1 : -(xs.length : Int) ≤ i) (h2 : i < (xs.length : Int)) :
    pyGet xs i = pyGet xs (if i < 0 then (xs.length : Int) + i else i) := by
  by_cases hneg : i < 0
  · rw [if_pos hneg]
    exact pyGet_neg xs i h1 hneg
  · rw [if_neg hneg]

/-- Any in-range index (negative or not) reads successfully. -/
theorem pyGet_ok_of_range {α : Type} (xs : List α) (i : Int)
    (h1 : -(xs.length : Int) ≤ i) (h2 : i < (xs.length : Int)) :
    ∃ v, pyGet xs i = .ok v := by
  have hc : (0 ≤ (if i < 0 then (xs.length : Int) + i else i)) ∧
      (if i < 0 then (xs.length : Int) + i else i) < (xs.length : Int) := by
    by_cases hneg : i < 0 <;> simp [hneg] <;> omega
  unfold pyGet
  dsimp only
  exact ⟨_, dif_pos hc⟩

/-- Any in-range write resolves to `List.set` at the resolved position. -/
theorem pySet_resolve_eval {α : Type} (xs : List α) (i : Int) (v : α)
    (h1 : -(xs.length : Int) ≤ i) (h2 : i < (xs.length : Int)) :
    pySet xs i v = .ok (xs.set (if i < 0 then (xs.length : Int) + i
      else i).toNat v) := by
  by_cases hneg : i < 0
  · rw [if_pos hneg, pySet_neg xs i v h1 hneg,
      pySet_nonneg xs _ v (by omega) (by omega)]
  · rw [if_neg hneg, pySet_nonneg xs i v (by omega) h2]

/-- `_take_indices` is oblivious to the sign of indices: each index can be
replaced by its resolved non-negative counterpart. -/
theorem take_indices_resolve {α : Type} (xs : List α) :
    ∀ is : List Int, (∀ j ∈ is, -(xs.length : Int) ≤ j ∧ j < (xs.length : Int)) →
      take_indices xs is =
        take_indices xs
          (is.map fun j => if j < 0 then (xs.length : Int) + j else j) := by
  intro is
  induction is with
  | nil => intro hv; rfl
  | cons i is' ih =>
    intro hv
    have h := hv i (by simp)
    rw [List.map_cons]
    conv_lhs => rw [take_indices]
    conv_rhs => rw [take_indices]
    rw [pyGet_resolve_eq xs i h.1 h.2]
    simp only [ih (fun t ht => hv t (by simp [ht]))]

/-- `_take_indices` succeeds on any list of in-range indices. -/
theorem take_indices_ok_of_range {α : Type} (xs : List α) :
    ∀ is : List Int, (∀ j ∈ is, -(xs.length : Int) ≤ j ∧ j < (xs.length : Int)) →
      ∃ r, take_indices xs is = .ok r := by
  intro is
  induction is with
  | nil => intro hv; exact ⟨[], rfl⟩
  | cons i is' ih =>
    intro hv
    have h := hv i (by simp)
    obtain ⟨v, hvget⟩ := pyGet_ok_of_range xs i h.1 h.2
    obtain ⟨r, hr⟩ := ih (fun t ht => hv t (by simp [ht]))
    refine ⟨v :: r, ?_⟩
    rw [take_indices, hvget]
    dsimp only
    rw [hr]

/-- The scatter loop succeeds on in-range indices and preserves the array
length. -/
theorem updateIndicesGo_ok_of_range {α : Type} :
    ∀ (is : List Int) (vs xs : List α),
      (∀ j ∈ is, -(xs.length : Int) ≤ j ∧ j < (xs.length : Int)) →
      ∃ out, updateIndicesGo xs is vs = .ok out ∧ out.length = xs.length := by
  intro is
  induction is with
  | nil => intro vs xs hv; exact ⟨xs, updateIndicesGo_nil_eval xs vs, rfl⟩
  | cons i is' ih =>
    intro vs xs hv
    have h := hv i (by simp)
    cases vs with
    | nil => exact ⟨xs, updateIndicesGo_nil2_eval xs i is', rfl⟩
    | cons v vs' =>
      rw [updateIndicesGo_cons_eval, pySet_resolve_eval xs i v h.1 h.2]
      dsimp only
      have hlenset : (xs.set (if i < 0 then (xs.length : Int) + i
          else i).toNat v).length = xs.length := List.length_set xs _ v
      obtain ⟨out, hout, hlen⟩ := ih vs' (xs.set _ v) (by
        rw [hlenset]
        exact fun t ht => hv t (by simp [ht]))
      exact ⟨out, hout, by rw [hlen, hlenset]⟩

/-- The scatter loop is oblivious to the sign of in-range indices. -/
theorem updateIndicesGo_resolve {α : Type} (n : Nat) :
    ∀ (is : List Int) (vs xs : List α), xs.length = n →
      (∀ j ∈ is, -(n : Int) ≤ j ∧ j < (n : Int)) →
      updateIndicesGo xs is vs =
        updateIndicesGo xs
          (is.map fun j => if j < 0 then (n : Int) + j else j) vs := by
  intro is
  induction is with
  | nil => intro vs xs hn hv; rfl
  | cons i is' ih =>
    intro vs xs hn hv
    have h := hv i (by simp)
    have hcast : (xs.length : Int) = (n : Int) := by rw [hn]
    have h1 : -(xs.length : Int) ≤ i := by rw [hcast]; exact h.1
    have h2 : i < (xs.length : Int) := by rw [hcast]; exact h.2
    cases vs with
    | nil =>
      rw [List.map_cons, updateIndicesGo_nil2_eval, updateIndicesGo_nil2_eval]
    | cons v vs' =>
      rw [List.map_cons, updateIndicesGo_cons_eval, updateIndicesGo_cons_eval]
      have hc0 : 0 ≤ (if i < 0 then (n : Int) + i else i) := by
        by_cases hneg : i < 0
        · rw [if_pos hneg]; omega
        · rw [if_neg hneg]; omega
      have hc1 : (if i < 0 then (n : Int) + i else i) < (n : Int) := by
        by_cases hneg : i < 0
        · rw [if_pos hneg]; omega
        · rw [if_neg hneg]; exact h.2
      have hres := pySet_nonneg xs (if i < 0 then (n : Int) + i else i) v hc0
        (by rw [hcast]; exact hc1)
      rw [pySet_resolve_eval xs i v h1 h2, hres, hcast]
      dsimp only
      exact ih vs' (xs.set _ v) (by rw [List.length_set]; exact hn)
        (fun t ht => hv t (by simp [ht]))

/-- Raw receive of one whole frame delivered as a single shard, with any
further shards untouched. -/
theorem receive_raw_frame (maxTotal : Nat) (p : List Nat) (rest : List Shard)
    (hlen : (decimalDigits p.length).length < MAX_MSG_PREFIX_LENGTH)
    (hmax : p.length < maxTotal) :
    receive_raw maxTotal (frameShard p :: rest) = .ok ((p.length, p), rest) := by
  have h := receive_raw_run maxTotal p p (decimalDigits p.length) [] [] rest
    (by simp) (decimalDigits_digits p.length) (by simp) (by simp)
    (by simpa using parse_decimalDigits p.length) (by simpa using hlen) hmax
  simpa [frameShard] using h

/-- Decoded receive of one whole frame delivered as a single shard. -/
theorem receive_data_frame (maxTotal : Nat) (p : List Nat) (rest : List Shard)
    (hlen : (decimalDigits p.length).length < MAX_MSG_PREFIX_LENGTH)
    (hmax : p.length < maxTotal) :
    receive_data maxTotal (frameShard p :: rest) =
      match decode_data p with
      | some v => .ok (v, rest)
      | none => .ok (.str "[See decoding error message.]", rest) := by
  unfold receive_data
  rw [receive_raw_frame maxTotal p rest hlen hmax]

/-- C1, counterexample: the framing round-trip claim fails when a shard split
falls inside the multi-byte separator.  The frame for the 20-byte payload
`replicate 20 65` is split into the non-empty shards `[50, 48, 58]` and
`58 :: replicate 20 65` (the separator `[58, 58]` straddles the boundary);
the per-shard `find` of `_receive_msg_length` never sees the separator, so
the pipeline dies on `assert length_end != -1` instead of recovering the
declared length 20 and the payload. -/
theorem c1_counterexample :
    ([[50, 48, 58], 58 :: List.replicate 20 65] : List Shard).flatten =
      decimalDigits (List.replicate (20 : Nat) (65 : Nat)).length ++
        MSG_LENGTH_SEPARATOR ++ List.replicate 20 65 ∧
    (∀ s ∈ ([[50, 48, 58], 58 :: List.replicate 20 65] : List Shard), s ≠ []) ∧
    receive_raw 1000 [[50, 48, 58], 58 :: List.replicate 20 65] =
      .fatal "server did not send message length" ∧
    receive_raw 1000 [[50, 48, 58], 58 :: List.replicate 20 65] ≠
      .ok ((20, List.replicate 20 65), []) := by
  refine ⟨by decide, by decide, rfl, by decide⟩

/-- C1 (amended): framing round-trip — for every payload `P` and every
splitting of exactly its encoded frame into successive non-empty read shards
such that the separator sequence lies wholly within a single shard (the shard
stream is `ds ++ [dsuf ++ separator ++ ppre] ++ ps` with `ds`/`dsuf` covering
the digits and `ppre`/`ps` covering `P`) and the length prefix is shorter
than the prefix-search budget, the decoding pipeline (`_receive_msg_length`
followed by `receive_data`'s payload assembly) recovers exactly the declared
length and exactly the payload `P`, consuming the whole stream; bytes read
past the separator within the separator's shard are correctly carried into
the payload. -/
theorem c1_framing_roundtrip (maxTotal : Nat) (P ppre dsuf : List Nat)
    (ds ps : List Shard)
    (hsplit : ds.flatten ++ dsuf = decimalDigits P.length)
    (hds : ∀ s ∈ ds, s ≠ [])
    (hps : ∀ s ∈ ps, s ≠ [])
    (hP : ppre ++ ps.flatten = P)
    (hlen : (decimalDigits P.length).length < MAX_MSG_PREFIX_LENGTH)
    (hmax : P.length < maxTotal) :
    receive_raw maxTotal (ds ++ (dsuf ++ MSG_LENGTH_SEPARATOR ++ ppre) :: ps) =
      .ok ((P.length, P), []) := by
  have hall : (ds.flatten ++ dsuf).all isDigit = true := by
    rw [hsplit]
    exact decimalDigits_digits P.length
  rw [List.all_append, Bool.and_eq_true] at hall
  have hds' : ∀ s ∈ ds, s ≠ [] ∧ s.all isDigit = true := by
    intro s hs
    refine ⟨hds s hs, ?_⟩
    rw [List.all_eq_true]
    intro x hx
    exact List.all_eq_true.mp hall.1 x (List.mem_flatten.mpr ⟨s, hs, hx⟩)
  have hparse : parseDecimal (ds.flatten ++ dsuf) = some P.length := by
    rw [hsplit]
    exact parse_decimalDigits P.length
  have hlen' : (ds.flatten ++ dsuf).length < MAX_MSG_PREFIX_LENGTH := by
    rw [hsplit]
    exact hlen
  have h := receive_raw_run maxTotal P ppre dsuf ds ps [] hds' hall.2 hps hP
    hparse hlen' hmax
  simpa using h

/-- C1, witness: the frame for payload `[65, 66]` split as digit-and-start
shard `[50] ++ separator ++ [65]` followed by payload shard `[66]` decodes to
declared length 2 and payload `[65, 66]`. -/
theorem c1_framing_roundtrip_witness :
    receive_raw 100 ([] ++ ([50] ++ MSG_LENGTH_SEPARATOR ++ [65]) :: [[66]]) =
      .ok ((([65, 66] : List Nat).length, [65, 66]), []) :=
  c1_framing_roundtrip 100 [65, 66] [65] [50] [] [[66]]
    (by decide) (by decide) (by decide) (by decide) (by decide) (by decide)

/-- C2 (code bug): on an empty round batch the client sends an empty action
list but then — for lack of a `continue` — evaluates `data[0]`, raising
`IndexError` and crashing instead of continuing the round loop
(src/eval_agent.py lines 366-372). -/
theorem c2_empty_batch_crash {St Act : Type}
    (decideFn : List Nat → List St → Option (List (Option Act)) →
      Option (List (Option Int)) → List Act × List St)
    (spi : String) (states : List St) (prevActions : List (Option Act))
    (prevRewards : List (Option Int)) :
    round_step decideFn spi states prevActions prevRewards [] =
      ([[]], .fatal "IndexError") := rfl

/-- C3 (confirmed): for every extended-shape round batch over distinct valid
indices, a successful round writes into the previous-reward slot at each
listed index exactly that entry's reward mapping looked up at this client's
own textual player index, and writes rewards at no other slot. -/
theorem c3_delayed_reward_alignment {St Act : Type}
    (decideFn : List Nat → List St → Option (List (Option Act)) →
      Option (List (Option Int)) → List Act × List St)
    (spi : String) (states : List St) (pa : List (Option Act))
    (pr : List (Option Int)) (data : List BEntry)
    (sends : List (List Act)) (res : RoundResult St Act)
    (h : round_step decideFn spi states pa pr data = (sends, .ok res))
    (hnn : ∀ i ∈ data.map (·.index), 0 ≤ i)
    (hnd : (data.map (·.index)).Nodup)
    (hext : ∀ e ∈ data, e.ext ≠ none) :
    (∀ (k : Nat) (e : BEntry)
        (x : (List (String × Int)) × (List (String × Bool)) × Unit) (r : Int),
        data[k]? = some e → e.ext = some x → List.lookup spi x.1 = some r →
        res.rewardsOf[e.index.toNat]? = some (some r)) ∧
    (∀ j : Nat, ((j : Int)) ∉ data.map (·.index) →
        res.rewardsOf[j]? = pr[j]?) := by
  refine ⟨round_step_ok_rewards decideFn spi states pa pr data sends res
    h hnn hnd hext, fun j hj => ?_⟩
  exact (round_step_ok_frame decideFn spi states pa pr data sends res
    h hnn j hj).2.2

/-- C3, witness: a two-entry extended batch with rewards keyed by player
index `"0"` writes reward 5 into slot 0. -/
theorem c3_delayed_reward_alignment_witness :
    (RoundResult.next ([10, 11] : List Nat)
        [some (0 : Int), some 0] [some (5 : Int), some 6]).rewardsOf[0]? =
      some (some 5) := by
  have h := c3_delayed_reward_alignment
    (fun o s _ _ => (o.map (fun _ => (0 : Int)), s)) "0"
    ([10, 11] : List Nat) [none, none] [none, none]
    [⟨0, [("0", 7)], some ([("0", 5)], [("__all__", false)], ())⟩,
     ⟨1, [("0", 8)], some ([("0", 6)], [("__all__", false)], ())⟩]
    [[0, 0]] (.next [10, 11] [some 0, some 0] [some 5, some 6])
    rfl (by decide) (by decide) (by simp)
  exact h.1 0 ⟨0, [("0", 7)], some ([("0", 5)], [("__all__", false)], ())⟩
    ([("0", 5)], [("__all__", false)], ()) 5 rfl rfl rfl

/-- C4 (confirmed): after one successful multiplexer round over a batch with
non-negative indices, every decision-state, previous-action and
previous-reward slot whose index is not in the batch's index list is
unchanged. -/
theorem c4_multiplexer_index_integrity {St Act : Type}
    (decideFn : List Nat → List St → Option (List (Option Act)) →
      Option (List (Option Int)) → List Act × List St)
    (spi : String) (states : List St) (pa : List (Option Act))
    (pr : List (Option Int)) (data : List BEntry)
    (sends : List (List Act)) (res : RoundResult St Act)
    (h : round_step decideFn spi states pa pr data = (sends, .ok res))
    (hnn : ∀ i ∈ data.map (·.index), 0 ≤ i) :
    ∀ j : Nat, ((j : Int)) ∉ data.map (·.index) →
      res.statesOf[j]? = states[j]? ∧ res.actionsOf[j]? = pa[j]? ∧
        res.rewardsOf[j]? = pr[j]? :=
  round_step_ok_frame decideFn spi states pa pr data sends res h hnn

/-- C4, witness: a one-entry batch touching only slot 0 leaves slot 1 of all
three arrays unchanged. -/
theorem c4_multiplexer_index_integrity_witness :
    (RoundResult.next ([10, 11] : List Nat)
        [some (0 : Int), none] [none, none]).statesOf[1]? =
      ([10, 11] : List Nat)[1]? ∧
    (RoundResult.next ([10, 11] : List Nat)
        [some (0 : Int), none] [none, none]).actionsOf[1]? =
      ([none, none] : List (Option Int))[1]? ∧
    (RoundResult.next ([10, 11] : List Nat)
        [some (0 : Int), none] [none, none]).rewardsOf[1]? =
      ([none, none] : List (Option Int))[1]? := by
  have h := c4_multiplexer_index_integrity
    (fun o s _ _ => (o.map (fun _ => (0 : Int)), s)) "0"
    ([10, 11] : List Nat) [none, none] [none, none]
    [⟨0, [("0", 7)], none⟩] [[0]] (.next [10, 11] [some 0, none] [none, none])
    rfl (by decide)
  exact h 1 (by decide)

/-- C5 (confirmed): a frame whose payload fails to decode does not raise —
`receive_data` returns the fixed sentinel string, `wait_for_data` treats the
sentinel as a notice (acknowledges it once) and the session continues: a
subsequent well-formed frame is still processed and its structured value
returned. -/
theorem c5_decode_failure_isolation (maxTotal : Nat) (bad good : List Nat)
    (v : Value) (rest : List Shard)
    (hbad : decode_data bad = none)
    (hgood : decode_data good = some v)
    (hv : ∀ s, v ≠ .str s)
    (hlb : (decimalDigits bad.length).length < MAX_MSG_PREFIX_LENGTH)
    (hlg : (decimalDigits good.length).length < MAX_MSG_PREFIX_LENGTH)
    (hmb : bad.length < maxTotal)
    (hmg : good.length < maxTotal) :
    receive_data maxTotal (frameShard bad :: frameShard good :: rest) =
      .ok (.str "[See decoding error message.]", frameShard good :: rest) ∧
    wait_for_data maxTotal (frameShard bad :: frameShard good :: rest) =
      (1, .ok (v, rest)) := by
  have h1 : receive_data maxTotal (frameShard bad :: frameShard good :: rest) =
      .ok (.str "[See decoding error message.]", frameShard good :: rest) := by
    rw [receive_data_frame maxTotal bad _ hlb hmb, hbad]
  have h2 : receive_data maxTotal (frameShard good :: rest) = .ok (v, rest) := by
    rw [receive_data_frame maxTotal good rest hlg hmg, hgood]
  refine ⟨h1, ?_⟩
  unfold wait_for_data
  simp only [List.length_cons]
  rw [waitLoop, h1]
  dsimp only
  rw [waitLoop]
  cases v with
  | str s => exact absurd rfl (hv s)
  | batch b =>
    rw [h2]

/-- C5, witness: the undecodable payload `[2]` followed by the decodable
payload `[1, 5]` yields the sentinel notice and then the decoded batch, with
one acknowledgement sent. -/
theorem c5_decode_failure_isolation_witness :
    receive_data 100 (frameShard [2] :: frameShard [1, 5] :: []) =
      .ok (.str "[See decoding error message.]", frameShard [1, 5] :: []) ∧
    wait_for_data 100 (frameShard [2] :: frameShard [1, 5] :: []) =
      (1, .ok (.batch [⟨5, [], none⟩], [])) :=
  c5_decode_failure_isolation 100 [2] [1, 5] (.batch [⟨5, [], none⟩]) []
    rfl rfl (by intro s hcon; simp at hcon)
    (by decide) (by decide) (by decide) (by decide)

/-- C6 (confirmed): each of the four conditions raises an unrecoverable
assertion failure — the separator not found within the bounded prefix-search
budget; the declared length not strictly below the configured maximum total
receive size; the assembled payload byte count exceeding (hence differing
from) the declared length; and a length mismatch between an index list and
the new-values list during a scatter update. -/
theorem c6_fatal_assertions :
    (∀ ss : List Shard, ss ≠ [] →
        (∀ s ∈ ss, s ≠ [] ∧ bytesFind s MSG_LENGTH_SEPARATOR = none) →
        MAX_MSG_PREFIX_LENGTH ≤ ss.flatten.length →
        receive_msg_length ss = .fatal "server did not send message length") ∧
    (∀ (maxTotal : Nat) (ss rest : List Shard) (L : Nat) (extra : List Nat),
        receive_msg_length ss = .ok ((L, extra), rest) → maxTotal ≤ L →
        receive_raw maxTotal ss = .fatal "message is too long") ∧
    (∀ (maxTotal : Nat) (ss rest : List Shard) (L : Nat) (extra : List Nat),
        receive_msg_length ss = .ok ((L, extra), rest) → L < maxTotal →
        L < extra.length →
        receive_raw maxTotal ss = .fatal "message does not match length") ∧
    (∀ (α : Type) (values : List α) (is : List Int) (vs : List α),
        is.length ≠ vs.length →
        update_indices values is vs =
          .fatal "length of indices to update and values to update with must match") := by
  refine ⟨receive_msg_length_nosep, ?_, ?_, ?_⟩
  · intro maxTotal ss rest L extra h hmax
    unfold receive_raw
    rw [h]
    dsimp only
    rw [if_neg (by omega)]
  · intro maxTotal ss rest L extra h hlt hover
    unfold receive_raw
    rw [h]
    dsimp only
    rw [if_pos hlt]
    have hov : recvPayloadLoop [extra] extra.length L rest =
        .fatal "message does not match length" := by
      have : (([extra] : List Shard).flatten).length = extra.length := by simp
      exact recvPayloadLoop_over rest [extra] extra.length L hover
    rw [hov]
  · intro α values is vs hne
    unfold update_indices
    rw [if_neg hne]

/-- C6, witness: concrete instances of all four fatal conditions. -/
theorem c6_fatal_assertions_witness :
    receive_msg_length (List.replicate 16 [65]) =
      .fatal "server did not send message length" ∧
    receive_raw 1 [[49, 58, 58]] = .fatal "message is too long" ∧
    receive_raw 100 [[49, 58, 58, 65, 66]] =
      .fatal "message does not match length" ∧
    update_indices ([1, 2] : List Nat) [0] [] =
      .fatal "length of indices to update and values to update with must match" := by
  refine ⟨?_, ?_, ?_, ?_⟩
  · exact c6_fatal_assertions.1 (List.replicate 16 [65]) (by decide) (by decide)
      (by decide)
  · exact c6_fatal_assertions.2.1 1 [[49, 58, 58]] [] 1 [] rfl (by decide)
  · exact c6_fatal_assertions.2.2.1 100 [[49, 58, 58, 65, 66]] [] 1 [65, 66]
      rfl (by decide) (by decide)
  · exact c6_fatal_assertions.2.2.2 Nat [1, 2] [0] [] (by decide)

/-- C7 (confirmed): a zero-byte read — at any point, including after any
number of notice/frame exchanges and in the middle of a frame — makes the
client exit with status 0, sending nothing further: the first conjunct is the
immediate reaction of `_receive_data_shard`, the second says that wherever
`wait_for_data` would have needed more data, a zero-byte read there produces
a clean exit with the acknowledgement count unchanged. -/
theorem c7_graceful_shutdown :
    (∀ ss : List Shard, receive_data_shard (([] : Shard) :: ss) = .exit0) ∧
    (∀ (maxTotal : Nat) (ss₁ xs : List Shard) (k : Nat),
        wait_for_data maxTotal ss₁ = (k, .blocked) →
        wait_for_data maxTotal (ss₁ ++ ([] : Shard) :: xs) = (k, .exit0)) := by
  constructor
  · intro ss
    rfl
  · intro mt ss₁ xs k h
    unfold wait_for_data at h ⊢
    exact waitLoop_ext (ss₁.length + 1) mt ss₁
      ((ss₁ ++ ([] : Shard) :: xs).length + 1) xs k (by omega)
      (by simp only [List.length_append, List.length_cons]; omega) h

/-- C7, witness: a zero-byte read as the very first read exits, and a
zero-byte read in the middle of a length prefix exits with no
acknowledgements sent. -/
theorem c7_graceful_shutdown_witness :
    receive_data_shard [([] : Shard)] = .exit0 ∧
    wait_for_data 5 ([[49, 48]] ++ ([] : Shard) :: []) = (0, .exit0) :=
  ⟨c7_graceful_shutdown.1 [], c7_graceful_shutdown.2 5 [[49, 48]] [] 0 rfl⟩

/-- C8 (confirmed): gathering the previous-action (or previous-reward) slots
for valid batch indices yields the per-slot values in batch index order, and
the argument the round passes to the decision function — the value of
`mask_arg` on that gathered list (src/eval_agent.py lines 387-405) — is the
single no-history marker `none` exactly when some selected slot is still
undefined, and the gathered list itself otherwise. -/
theorem c8_history_masking {Act : Type} (pa : List (Option Act))
    (is : List Int)
    (hv : ∀ i ∈ is, 0 ≤ i ∧ i < (pa.length : Int)) :
    take_indices pa is = .ok (is.map fun i => pa.getD i.toNat none) ∧
    ((∃ i ∈ is, pa.getD i.toNat none = none) →
      mask_arg (is.map fun i => pa.getD i.toNat none) = none) ∧
    ((∀ i ∈ is, pa.getD i.toNat none ≠ none) →
      mask_arg (is.map fun i => pa.getD i.toNat none) =
        some (is.map fun i => pa.getD i.toNat none)) := by
  refine ⟨take_indices_valid pa none is hv, ?_, ?_⟩
  · rintro ⟨i, hi, hnone⟩
    exact mask_arg_none _ ⟨pa.getD i.toNat none, List.mem_map.mpr ⟨i, hi, rfl⟩, hnone⟩
  · intro hall
    refine mask_arg_some _ ?_
    intro x hx
    obtain ⟨i, hi, rfl⟩ := List.mem_map.mp hx
    exact hall i hi

/-- C8, witness: with slot 0 undefined, gathering slots 0 and 1 yields the
per-slot values and the masked argument collapses to `none`. -/
theorem c8_history_masking_witness :
    take_indices ([none, some 3] : List (Option Int)) [0, 1] =
      .ok [none, some 3] ∧
    mask_arg ([none, some 3] : List (Option Int)) = none := by
  have h := c8_history_masking ([none, some (3 : Int)] : List (Option Int))
    [0, 1] (by decide)
  exact ⟨h.1, h.2.1 (by decide)⟩

/-- C9 (confirmed): with a configured maximum of `K` games, `N` parallel
instances and `N ∣ K`, the session loop performs exactly `K / N`
episode-batches (incrementing the completed-games counter by `N` each time)
and then stops; with no maximum configured it never terminates on its own. -/
theorem c9_termination_counting :
    (∀ (K N fuel : Nat), 0 < N → N ∣ K → K / N ≤ fuel →
        run_session fuel (some K) N 0 = some (K / N)) ∧
    (∀ (fuel N : Nat), run_session fuel none N 0 = none) := by
  constructor
  · intro K N fuel hN hdvd hfuel
    obtain ⟨q, hq⟩ := hdvd
    subst hq
    rw [Nat.mul_div_cancel_left q hN] at hfuel ⊢
    have h := run_session_exact q fuel N 0 hN hfuel
    rw [show N * q = 0 + q * N from by ring]
    exact h
  · intro fuel N
    exact run_session_none fuel N 0

/-- C9, witness: 4 maximum games over 2 parallel instances makes exactly 2
episode-batches; with no maximum the loop exhausts any fuel. -/
theorem c9_termination_counting_witness :
    run_session 5 (some 4) 2 0 = some (4 / 2) ∧
    run_session 7 none 3 0 = none :=
  ⟨c9_termination_counting.1 4 2 5 (by decide) (by decide) (by decide),
   c9_termination_counting.2 7 3⟩

/-- C10 (confirmed, implicit): the gather and scatter helpers do not
validate indices — a negative in-range index `-N ≤ i < 0` silently aliases
slot `N + i`: reads and writes at `i` coincide with those at `N + i`,
`_take_indices` and `_update_indices` succeed on any in-range index list,
and both are unchanged when every index is replaced by its resolved
non-negative counterpart. -/
theorem c10_negative_index_alias {α : Type} (xs : List α) (is : List Int)
    (vs : List α) (i : Int) (v : α)
    (hneg : -(xs.length : Int) ≤ i) (hlt : i < 0)
    (hv : ∀ j ∈ is, -(xs.length : Int) ≤ j ∧ j < (xs.length : Int))
    (hlen : is.length = vs.length) :
    pyGet xs i = pyGet xs ((xs.length : Int) + i) ∧
    pySet xs i v = pySet xs ((xs.length : Int) + i) v ∧
    (∃ r, take_indices xs is = .ok r) ∧
    (∃ out, update_indices xs is vs = .ok out) ∧
    take_indices xs is =
      take_indices xs
        (is.map fun j => if j < 0 then (xs.length : Int) + j else j) ∧
    update_indices xs is vs =
      update_indices xs
        (is.map fun j => if j < 0 then (xs.length : Int) + j else j) vs := by
  refine ⟨pyGet_neg xs i hneg hlt, pySet_neg xs i v hneg hlt,
    take_indices_ok_of_range xs is hv, ?_,
    take_indices_resolve xs is hv, ?_⟩
  · unfold update_indices
    rw [if_pos hlen]
    obtain ⟨out, hout, _⟩ := updateIndicesGo_ok_of_range is vs xs hv
    exact ⟨out, hout⟩
  · unfold update_indices
    rw [if_pos hlen, if_pos (by rw [List.length_map]; exact hlen)]
    exact updateIndicesGo_resolve xs.length is vs xs rfl hv

/-- C10, witness: on a 3-slot array, index `-1` aliases slot 2 and the
helpers accept it without failing. -/
theorem c10_negative_index_alias_witness :
    pyGet ([10, 20, 30] : List Nat) (-1) = pyGet [10, 20, 30] 2 ∧
    take_indices ([10, 20, 30] : List Nat) [-1, 0] =
      take_indices [10, 20, 30] [2, 0] := by
  have h := c10_negative_index_alias ([10, 20, 30] : List Nat) [-1, 0] [7, 8]
    (-1) 99 (by decide) (by decide) (by decide) (by decide)
  exact ⟨h.1, h.2.2.2.2.1⟩
